import Mathlib

/-!
Shallow embedding of the interval-activation scheduler of `osu-js`
(`src/play/game/timeline.ts`): the generic `Timeline` engine (sorted
interval descriptors, incremental scan cursor, active set, two-phase
update), its constructor, and the `AudioObjectTimeline.seek` audio
synchronization logic.

Times are modelled as rationals (the source uses JS numbers).  The opaque
payload produced by a descriptor's `build()` factory is not itself
modelled; instead every `update` call returns an event record listing,
in order, the element indices for which `build()`/`createElement` ran
(`builds`), for which `updateElement` ran (`updated`) and for which
`destroyElement` ran (`destroyed`).  The initially-`undefined` fields
`lastTimeMs` and `nextElementIndex` are modelled as `Option` (JS
comparisons against `undefined` are `false`, and `undefined ??= x`
assigns); array accesses `elements[i]` are modelled by an `Option`
returning lookup, and an unguarded property access on a missing element
(which would throw in JS) makes the whole `update` return `none`.
-/

/-- Interval descriptor: the `IDurable` part of a `TimelineElement` from
`timeline.ts` (its `build` payload factory is tracked through the event
log instead of being modelled as data). -/
structure TimelineElement where
  startTimeMs : ℚ
  endTimeMs : ℚ
  deriving DecidableEq, Repr

/-- Active entry: `TimelineElementState` from `timeline.ts`, the window
copied from the descriptor at activation time (the built `instance` is
opaque and omitted). -/
structure TimelineElementState where
  startTimeMs : ℚ
  endTimeMs : ℚ
  deriving DecidableEq, Repr

/-- Event log of one `update` call: indices for which `build()` (and the
`createElement` hook) ran, indices ticked by `updateElement`, and indices
removed with `destroyElement`. -/
structure UpdateEvents where
  builds : List Int
  updated : List Int
  destroyed : List Int
  deriving DecidableEq, Repr

/-- State of a `Timeline` object: the sorted descriptor array, the
`allowSkippingElements` option, the `activeElements` map (a JS `Map`
keyed by array index, in insertion order), and the two initially
`undefined` fields. -/
structure Timeline where
  elements : List TimelineElement
  allowSkippingElements : Bool
  activeElements : List (Int × TimelineElementState)
  lastTimeMs : Option ℚ
  nextElementIndex : Option Int
  deriving DecidableEq, Repr

/-- JS array read `l[i]`: `none` when the index is out of bounds (JS
would yield `undefined`). -/
def getI (l : List α) (i : Int) : Option α :=
  if 0 ≤ i then l.get? i.toNat else none

/-- Membership test of the `activeElements` map (`Map.has`). -/
def hasKey (m : List (Int × TimelineElementState)) (k : Int) : Bool :=
  m.any (fun p => p.1 = k)

/-- Update of the `activeElements` map (`Map.set`): replaces the value in
place when the key is present, appends otherwise (JS `Map` insertion
order). -/
def mapSet (m : List (Int × TimelineElementState)) (k : Int)
    (v : TimelineElementState) : List (Int × TimelineElementState) :=
  if hasKey m k then m.map (fun p => if p.1 = k then (k, v) else p)
  else m ++ [(k, v)]

/-- Modelled from the spec: `BinarySearch.findIndex` comes from the
external `osu-classes` package, whose source is not part of this
repository.  Per the spec (§4.1) it finds, over the sorted array, the
first index in the direction of travel whose window has not yet fully
elapsed, and reports "no index" as `-1`.  Forward this is the least
index with `timeMs < endTimeMs`; this helper scans left to right. -/
def findIndexFwdAux (timeMs : ℚ) : List TimelineElement → ℕ → Int
  | [], _ => -1
  | e :: es, i =>
    if timeMs < e.endTimeMs then (i : Int) else findIndexFwdAux timeMs es (i + 1)

/-- Modelled from the spec: forward binary-search entry point, the least
index with `timeMs < endTimeMs`, `-1` when none exists (see
`findIndexFwdAux`). -/
def findIndexFwd (elements : List TimelineElement) (timeMs : ℚ) : Int :=
  findIndexFwdAux timeMs elements 0

/-- Modelled from the spec: backward counterpart of `findIndexFwdAux`.
Scanning direction is decreasing index, so the first index not yet
elapsed is the greatest index with `startTimeMs < timeMs`; higher
indices take precedence, `-1` when none satisfies the predicate. -/
def findIndexBwdAux (timeMs : ℚ) : List TimelineElement → ℕ → Int
  | [], _ => -1
  | e :: es, i =>
    let rest := findIndexBwdAux timeMs es (i + 1)
    if 0 ≤ rest then rest
    else if e.startTimeMs < timeMs then (i : Int) else -1

/-- Modelled from the spec: backward binary-search entry point (see
`findIndexBwdAux`). -/
def findIndexBwd (elements : List TimelineElement) (timeMs : ℚ) : Int :=
  findIndexBwdAux timeMs elements 0

/-- Cursor resynchronization `Timeline.setInitialElementIndex`.  The
stale checks compare against the possibly-`undefined` `lastTimeMs` and
the possibly-missing element at the cursor (optional chaining in the
source); when stale, the cursor is recomputed by binary search, with the
forward result clamped to `0` when no index was found. -/
def Timeline.setInitialElementIndex (elements : List TimelineElement)
    (lastTimeMs : Option ℚ) (nextElementIndex : Int) (timeMs : ℚ)
    (forward : Bool) : Int :=
  let nextElement := getI elements nextElementIndex
  let isSeekingBackwards : Bool :=
    match lastTimeMs with
    | none => false
    | some l => if forward then decide (timeMs < l) else decide (l < timeMs)
  let isSeekingForward : Bool :=
    match nextElement with
    | none => false
    | some e =>
      if forward then decide (e.endTimeMs ≤ timeMs)
      else decide (timeMs ≤ e.startTimeMs)
  if !isSeekingBackwards && !isSeekingForward && nextElement.isSome then
    nextElementIndex
  else if forward then
    max (findIndexFwd elements timeMs) 0
  else
    findIndexBwd elements timeMs

/-- Loop guard `Timeline.shouldAddNextElement`.  The source first checks
that the index is on the open side of the array (`idx < length` forward,
`0 ≤ idx` backward) and then reads `elements[idx].startTimeMs` (resp.
`.endTimeMs`) without a guard on the other side; a read of a missing
element is a JS `TypeError`, modelled as `none`. -/
def Timeline.shouldAddNextElement (elements : List TimelineElement)
    (timeMs : ℚ) (forward : Bool) (nextElementIndex : Int) : Option Bool :=
  let elementExists : Bool :=
    if forward then decide (nextElementIndex < (elements.length : Int))
    else decide (0 ≤ nextElementIndex)
  if !elementExists then some false
  else
    match getI elements nextElementIndex with
    | none => none
    | some e =>
      some (if forward then decide (e.startTimeMs < timeMs)
            else decide (timeMs < e.endTimeMs))

/-- Scan phase of `Timeline.update`: the
`for (setInitial...; shouldAdd...; setNext...)` loop.  Activates (or,
with `allowSkippingElements`, silently bypasses elements that have
already ended or are already active) starting from the resynchronized
cursor, one step per fuel unit.  Returns the final cursor, the updated
active map and the accumulated build list; `none` models a thrown
exception or fuel exhaustion (proved unreachable). -/
def Timeline.scan (elements : List TimelineElement)
    (allowSkippingElements : Bool) (timeMs : ℚ) (forward : Bool) :
    ℕ → Int → List (Int × TimelineElementState) → List Int →
    Option (Int × List (Int × TimelineElementState) × List Int)
  | 0, _, _, _ => none
  | fuel + 1, idx, active, builds =>
    match Timeline.shouldAddNextElement elements timeMs forward idx with
    | none => none
    | some false => some (idx, active, builds)
    | some true =>
      match getI elements idx with
      | none => none
      | some nextElement =>
        let hasEnded : Bool := decide (nextElement.endTimeMs ≤ timeMs)
        let isActive : Bool := hasKey active idx
        let next : Int := if forward then idx + 1 else idx - 1
        if !allowSkippingElements || (!hasEnded && !isActive) then
          Timeline.scan elements allowSkippingElements timeMs forward fuel next
            (mapSet active idx ⟨nextElement.startTimeMs, nextElement.endTimeMs⟩)
            (builds ++ [idx])
        else
          Timeline.scan elements allowSkippingElements timeMs forward fuel next
            active builds

/-- Containment test of the reconciliation pass:
`timeMs >= element.startTimeMs && timeMs < element.endTimeMs`, evaluated
on the stored entry (not the descriptor array). -/
def inWindow (timeMs : ℚ) (st : TimelineElementState) : Bool :=
  decide (st.startTimeMs ≤ timeMs) && decide (timeMs < st.endTimeMs)

/-- Reconciliation pass of `Timeline.update`: every entry of the active
map is ticked when its window still contains `timeMs` and destroyed and
removed otherwise.  Returns the surviving map, the ticked keys and the
destroyed keys. -/
def Timeline.reconcile (timeMs : ℚ)
    (active : List (Int × TimelineElementState)) :
    List (Int × TimelineElementState) × List Int × List Int :=
  (active.filter (fun p => inWindow timeMs p.2),
   (active.filter (fun p => inWindow timeMs p.2)).map (fun p => p.1),
   (active.filter (fun p => !inWindow timeMs p.2)).map (fun p => p.1))

/-- One call of `Timeline.update(timeMs, forward)`: `??=` initialization
of the cursor, cursor resynchronization, scan phase (with enough fuel
for the whole array), reconciliation, and the `lastTimeMs` write-back.
Returns `none` exactly when the scan would fault. -/
def Timeline.update (t : Timeline) (timeMs : ℚ) (forward : Bool) :
    Option (Timeline × UpdateEvents) :=
  let idx0 : Int :=
    t.nextElementIndex.getD (if forward then 0 else (t.elements.length : Int) - 1)
  let idx1 := Timeline.setInitialElementIndex t.elements t.lastTimeMs idx0
    timeMs forward
  match Timeline.scan t.elements t.allowSkippingElements timeMs forward
      (t.elements.length + 1) idx1 t.activeElements [] with
  | none => none
  | some (idxF, activeMid, builds) =>
    let r := Timeline.reconcile timeMs activeMid
    some ({ t with
              activeElements := r.1
              lastTimeMs := some timeMs
              nextElementIndex := some idxF },
          ⟨builds, r.2.1, r.2.2⟩)

/-- Stable insertion used by the constructor's
`sort((a, b) => a.startTimeMs - b.startTimeMs)`: an element moves past
strictly smaller keys only, so elements with equal `startTimeMs` keep
their relative order. -/
def insertByStart (e : TimelineElement) :
    List TimelineElement → List TimelineElement
  | [] => [e]
  | f :: fs =>
    if f.startTimeMs < e.startTimeMs then f :: insertByStart e fs
    else e :: f :: fs

/-- Stable sort by `startTimeMs` performed once by the `Timeline`
constructor. -/
def sortByStart : List TimelineElement → List TimelineElement
  | [] => []
  | e :: es => insertByStart e (sortByStart es)

/-- The `Timeline` constructor: copies and sorts the descriptors by
`startTimeMs` and performs no further validation; the active map starts
empty and `lastTimeMs` / `nextElementIndex` start `undefined`. -/
def mkTimeline (elements : List TimelineElement)
    (allowSkippingElements : Bool) : Timeline :=
  { elements := sortByStart elements
    allowSkippingElements := allowSkippingElements
    activeElements := []
    lastTimeMs := none
    nextElementIndex := none }

/-- Sequential forward playback: a list of `update(t, forward := true)`
calls, collecting each call's event record. -/
def Timeline.run (t : Timeline) :
    List ℚ → Option (Timeline × List UpdateEvents)
  | [] => some (t, [])
  | timeMs :: rest =>
    match Timeline.update t timeMs true with
    | none => none
    | some (t', ev) =>
      match Timeline.run t' rest with
      | none => none
      | some (t'', evs) => some (t'', ev :: evs)

/-- First time of a call sequence lying strictly beyond a start
boundary; with a monotone sequence this is the clock value of the first
call that has crossed the boundary. -/
def firstHit (ts : List ℚ) (s : ℚ) : Option ℚ :=
  ts.find? (fun t => decide (s < t))

/-- Whether a monotone forward playback `ts` ever activates a descriptor
with the given window under element skipping: the first call strictly
past `startTimeMs` must still lie before `endTimeMs`. -/
def hitsWindow (ts : List ℚ) (e : TimelineElement) : Bool :=
  match firstHit ts e.startTimeMs with
  | some t => decide (t < e.endTimeMs)
  | none => false

/-- Playable sound resource behind an active audio entry: the `Howl`
voice state the `seek` logic consults (`sound.playing(soundId)` and
`sound.duration(soundId)`, the latter in seconds). -/
structure HowlVoice where
  playing : Bool
  durationSec : ℚ
  deriving DecidableEq, Repr

/-- Storyboard sample data used by `AudioObjectTimeline.seek`: only the
absolute `startTime` (in milliseconds) is consulted. -/
structure StoryboardSampleData where
  startTime : ℚ
  deriving DecidableEq, Repr

/-- An `AudioTimelineInstance`: the sample descriptor and the optional
sound resource (`sound: Howl | null`); the opaque `soundId` voice lease
is implicit. -/
structure AudioTimelineInstance where
  sample : StoryboardSampleData
  sound : Option HowlVoice
  deriving DecidableEq, Repr

/-- Command sent to the underlying sound handle by `seek`. -/
inductive SoundCmd where
  | seekTo (posSec : ℚ)
  | stop
  deriving DecidableEq, Repr

/-- Per-voice body of `AudioObjectTimeline.seek(timeMs)`, returning the
exact command sequence sent to the sound handle.  Faithful to the
source: an unconditional `sound.seek(seekTimeMs / 1000, soundId)` is
issued first; then, out of bounds, a playing voice is stopped; in
bounds, a drift above 20 ms issues the (second, identical) explicit
seek. -/
def seekVoice (lastTimeMs timeMs : ℚ) (inst : AudioTimelineInstance) :
    List SoundCmd :=
  match inst.sound with
  | none => []
  | some sound =>
    let timeRelativeMs := timeMs - inst.sample.startTime
    let seekOffsetMs := timeMs - lastTimeMs
    let seekTimeMs := timeRelativeMs + seekOffsetMs
    let sampleDurationMs := sound.durationSec * 1000
    let sampleEndTimeMs := inst.sample.startTime + sampleDurationMs
    [SoundCmd.seekTo (seekTimeMs / 1000)] ++
      (if seekTimeMs < 0 ∨ sampleEndTimeMs ≤ seekTimeMs then
        (if sound.playing then [SoundCmd.stop] else [])
      else if 20 < |timeMs - lastTimeMs| then
        [SoundCmd.seekTo (seekTimeMs / 1000)]
      else [])

/-- Broadcast of `AudioObjectTimeline.seek` over all active voices, in
active-map order. -/
def audioSeekCommands (lastTimeMs timeMs : ℚ)
    (insts : List AudioTimelineInstance) : List SoundCmd :=
  (insts.map (seekVoice lastTimeMs timeMs)).flatten

/-! Basic facts about the JS-array read `getI`. -/

theorem get?_isSome_iff {l : List α} {n : ℕ} :
    (l.get? n).isSome ↔ n < l.length := by
  rw [Option.isSome_iff_exists]
  constructor
  · intro ⟨a, ha⟩
    exact (List.get?_eq_some.mp ha).1
  · intro h
    exact ⟨l.get ⟨n, h⟩, List.get?_eq_some.mpr ⟨h, rfl⟩⟩

theorem getI_eq_some {l : List α} {i : Int} {a : α} :
    getI l i = some a ↔ 0 ≤ i ∧ l.get? i.toNat = some a := by
  unfold getI
  split <;> simp_all

theorem getI_nat {l : List α} (j : ℕ) : getI l (j : Int) = l.get? j := by
  simp [getI]

theorem getI_isSome {l : List α} {i : Int} :
    (getI l i).isSome ↔ 0 ≤ i ∧ i < (l.length : Int) := by
  unfold getI
  split
  · rename_i h
    rw [get?_isSome_iff]
    omega
  · rename_i h
    simp only [Option.isSome_none, Bool.false_eq_true, false_iff, not_and]
    intro h0
    exact absurd h0 h

theorem getI_lt_length {l : List α} {i : Int} {a : α}
    (h : getI l i = some a) : 0 ≤ i ∧ i < (l.length : Int) :=
  getI_isSome.mp (by simp [h])

theorem getI_total {l : List α} {i : Int} (h0 : 0 ≤ i)
    (hl : i < (l.length : Int)) : ∃ a, getI l i = some a :=
  Option.isSome_iff_exists.mp (getI_isSome.mpr ⟨h0, hl⟩)

/-- Start times read through `getI` respect the sort order. -/
theorem sorted_start_le {l : List TimelineElement}
    (hs : l.Pairwise (fun a b => a.startTimeMs ≤ b.startTimeMs))
    {i j : Int} (hij : i ≤ j) {a b : TimelineElement}
    (ha : getI l i = some a) (hb : getI l j = some b) :
    a.startTimeMs ≤ b.startTimeMs := by
  obtain ⟨hi0, ha⟩ := getI_eq_some.mp ha
  obtain ⟨hj0, hb⟩ := getI_eq_some.mp hb
  rcases eq_or_lt_of_le hij with rfl | hlt
  · rw [ha] at hb
    cases hb
    exact le_refl _
  · rw [List.get?_eq_some] at ha hb
    obtain ⟨hia, rfl⟩ := ha
    obtain ⟨hjb, rfl⟩ := hb
    exact List.pairwise_iff_get.mp hs ⟨i.toNat, hia⟩ ⟨j.toNat, hjb⟩
      (by simp only [Fin.mk_lt_mk]; omega)

/-! Facts about the active map primitives. -/

theorem hasKey_iff {m : List (Int × TimelineElementState)} {k : Int} :
    hasKey m k = true ↔ ∃ st, (k, st) ∈ m := by
  unfold hasKey
  rw [List.any_eq_true]
  constructor
  · intro ⟨⟨pk, pv⟩, hp, he⟩
    simp only [decide_eq_true_eq] at he
    subst he
    exact ⟨pv, hp⟩
  · intro ⟨st, hst⟩
    exact ⟨(k, st), hst, by simp⟩

theorem hasKey_of_mem {m : List (Int × TimelineElementState)}
    {k : Int} {st : TimelineElementState} (h : (k, st) ∈ m) :
    hasKey m k = true :=
  hasKey_iff.mpr ⟨st, h⟩

theorem hasKey_mapSet {m : List (Int × TimelineElementState)} {k k' : Int}
    {v : TimelineElementState} :
    hasKey (mapSet m k v) k' = true ↔ hasKey m k' = true ∨ k' = k := by
  unfold mapSet
  by_cases hm : hasKey m k = true
  · rw [if_pos hm]
    constructor
    · intro h
      obtain ⟨st, hst⟩ := hasKey_iff.mp h
      rw [List.mem_map] at hst
      obtain ⟨⟨pk, pv⟩, hp, he⟩ := hst
      by_cases hpk : pk = k
      · subst hpk
        rw [if_pos rfl] at he
        obtain ⟨h1, h2⟩ := (Prod.mk.injEq _ _ _ _).mp he
        exact Or.inr h1.symm
      · rw [if_neg (by simpa using hpk)] at he
        obtain ⟨h1, h2⟩ := (Prod.mk.injEq _ _ _ _).mp he
        subst h1; subst h2
        exact Or.inl (hasKey_of_mem hp)
    · intro h
      rcases h with h | rfl
      · obtain ⟨st, hst⟩ := hasKey_iff.mp h
        by_cases hkk : k' = k
        · subst hkk
          exact hasKey_iff.mpr ⟨v, List.mem_map.mpr ⟨(k', st), hst, by simp⟩⟩
        · refine hasKey_iff.mpr ⟨st, List.mem_map.mpr ⟨(k', st), hst, ?_⟩⟩
          simp [hkk]
      · obtain ⟨st, hst⟩ := hasKey_iff.mp hm
        exact hasKey_iff.mpr ⟨v, List.mem_map.mpr ⟨(k', st), hst, by simp⟩⟩
  · rw [if_neg hm]
    unfold hasKey at *
    simp only [List.any_append, List.any_cons, List.any_nil, Bool.or_eq_true,
      Bool.or_false, decide_eq_true_eq] at *
    constructor
    · intro h
      rcases h with h | h
      · exact Or.inl h
      · exact Or.inr h.symm
    · intro h
      rcases h with h | rfl
      · exact Or.inl h
      · exact Or.inr rfl

theorem mem_mapSet {m : List (Int × TimelineElementState)} {k : Int}
    {v : TimelineElementState} {p : Int × TimelineElementState}
    (h : p ∈ mapSet m k v) : p ∈ m ∨ p = (k, v) := by
  unfold mapSet at h
  split at h
  · rw [List.mem_map] at h
    obtain ⟨⟨qk, qv⟩, hq, he⟩ := h
    by_cases hqk : qk = k
    · rw [if_pos (by simpa using hqk)] at he
      exact Or.inr he.symm
    · rw [if_neg (by simpa using hqk)] at he
      exact Or.inl (he ▸ hq)
  · rw [List.mem_append] at h
    rcases h with h | h
    · exact Or.inl h
    · simp only [List.mem_singleton] at h
      exact Or.inr h

theorem mem_mapSet_of_ne {m : List (Int × TimelineElementState)} {k k' : Int}
    {v st : TimelineElementState} (hne : k' ≠ k)
    (h : (k', st) ∈ m) : (k', st) ∈ mapSet m k v := by
  unfold mapSet
  split
  · refine List.mem_map.mpr ⟨(k', st), h, ?_⟩
    simp [hne]
  · exact List.mem_append.mpr (Or.inl h)

theorem mapSet_self_val {m : List (Int × TimelineElementState)} {k : Int}
    {v st : TimelineElementState} (h : (k, st) ∈ mapSet m k v) : st = v := by
  unfold mapSet at h
  split at h
  · rw [List.mem_map] at h
    obtain ⟨⟨qk, qv⟩, hq, he⟩ := h
    by_cases hqk : qk = k
    · rw [if_pos (by simpa using hqk)] at he
      exact ((Prod.mk.injEq _ _ _ _).mp he.symm).2
    · rw [if_neg (by simpa using hqk)] at he
      obtain ⟨h1, h2⟩ := (Prod.mk.injEq _ _ _ _).mp he
      exact absurd h1 hqk
  · rename_i hm
    rw [List.mem_append] at h
    rcases h with h | h
    · exact absurd (hasKey_of_mem h) (by simpa using hm)
    · simpa using ((Prod.mk.injEq _ _ _ _).mp (List.mem_singleton.mp h)).2

theorem mapSet_keys_nodup {m : List (Int × TimelineElementState)} {k : Int}
    {v : TimelineElementState} (h : (m.map Prod.fst).Nodup) :
    ((mapSet m k v).map Prod.fst).Nodup := by
  unfold mapSet
  split
  · rw [List.map_map]
    have he : (Prod.fst ∘ fun p : Int × TimelineElementState =>
        if p.1 = k then (k, v) else p) = Prod.fst := by
      funext p
      by_cases hp : p.1 = k <;> simp [hp]
    rw [he]
    exact h
  · rename_i hm
    rw [List.map_append, List.nodup_append]
    refine ⟨h, by simp, ?_⟩
    intro a ha
    simp only [List.map_cons, List.map_nil, List.mem_singleton]
    intro hak
    subst hak
    rw [List.mem_map] at ha
    obtain ⟨⟨pk, pv⟩, hp, he⟩ := ha
    simp only at he
    subst he
    exact absurd (hasKey_of_mem hp) (by simpa using hm)

/-! Characterization of the spec-modelled binary searches. -/

theorem findIndexFwdAux_spec (timeMs : ℚ) :
    ∀ (l : List TimelineElement) (i : ℕ),
    (findIndexFwdAux timeMs l i = -1 ∧
      ∀ (j : ℕ) (e : TimelineElement), l.get? j = some e →
        e.endTimeMs ≤ timeMs) ∨
    (∃ j : ℕ, findIndexFwdAux timeMs l i = ((i + j : ℕ) : Int) ∧
      j < l.length ∧
      (∃ e, l.get? j = some e ∧ timeMs < e.endTimeMs) ∧
      ∀ (j' : ℕ) (e : TimelineElement), j' < j → l.get? j' = some e →
        e.endTimeMs ≤ timeMs) := by
  intro l
  induction l with
  | nil => intro i; exact Or.inl ⟨rfl, by simp⟩
  | cons e es ih =>
    intro i
    by_cases he : timeMs < e.endTimeMs
    · refine Or.inr ⟨0, ?_, by simp, ⟨e, rfl, he⟩, by omega⟩
      simp [findIndexFwdAux, he]
    · rcases ih (i + 1) with ⟨h1, h2⟩ | ⟨j, h1, h2, h3, h4⟩
      · refine Or.inl ⟨?_, ?_⟩
        · simpa [findIndexFwdAux, he] using h1
        · intro j a hj
          cases j with
          | zero =>
            cases hj
            exact le_of_not_lt he
          | succ j' => exact h2 j' a hj
      · refine Or.inr ⟨j + 1, ?_, by simpa using h2, h3, ?_⟩
        · rw [show ((i + (j + 1) : ℕ) : Int) = (((i + 1) + j : ℕ) : Int) by omega]
          simpa [findIndexFwdAux, he] using h1
        · intro j' a hj' hg
          cases j' with
          | zero =>
            cases hg
            exact le_of_not_lt he
          | succ j'' => exact h4 j'' a (by omega) hg

theorem findIndexBwdAux_spec (timeMs : ℚ) :
    ∀ (l : List TimelineElement) (i : ℕ),
    (findIndexBwdAux timeMs l i = -1 ∧
      ∀ (j : ℕ) (e : TimelineElement), l.get? j = some e →
        timeMs ≤ e.startTimeMs) ∨
    (∃ j : ℕ, findIndexBwdAux timeMs l i = ((i + j : ℕ) : Int) ∧
      j < l.length ∧
      (∃ e, l.get? j = some e ∧ e.startTimeMs < timeMs) ∧
      ∀ (j' : ℕ) (e : TimelineElement), j < j' → l.get? j' = some e →
        timeMs ≤ e.startTimeMs) := by
  intro l
  induction l with
  | nil => intro i; exact Or.inl ⟨rfl, by simp⟩
  | cons e es ih =>
    intro i
    rcases ih (i + 1) with ⟨h1, h2⟩ | ⟨j, h1, h2, h3, h4⟩
    · by_cases he : e.startTimeMs < timeMs
      · refine Or.inr ⟨0, ?_, by simp, ⟨e, rfl, he⟩, ?_⟩
        · simp only [findIndexBwdAux, h1]
          norm_num [he]
        · intro j' a hj' hg
          cases j' with
          | zero => omega
          | succ j'' => exact h2 j'' a hg
      · refine Or.inl ⟨?_, ?_⟩
        · simp only [findIndexBwdAux, h1]
          norm_num [he]
        · intro j a hj
          cases j with
          | zero =>
            cases hj
            exact le_of_not_lt he
          | succ j' => exact h2 j' a hj
    · refine Or.inr ⟨j + 1, ?_, by simpa using h2, h3, ?_⟩
      · have hge : (0 : Int) ≤ ((i + 1 + j : ℕ) : Int) := by positivity
        rw [show ((i + (j + 1) : ℕ) : Int) = (((i + 1) + j : ℕ) : Int) by omega]
        simp only [findIndexBwdAux, h1]
        rw [if_pos hge]
      · intro j' a hj' hg
        cases j' with
        | zero => omega
        | succ j'' => exact h4 j'' a (by omega) hg

theorem findIndexFwd_range (l : List TimelineElement) (timeMs : ℚ) :
    -1 ≤ findIndexFwd l timeMs ∧ findIndexFwd l timeMs < (l.length : Int) ∨
    findIndexFwd l timeMs = -1 := by
  rcases findIndexFwdAux_spec timeMs l 0 with ⟨h1, _⟩ | ⟨j, h1, h2, _⟩
  · exact Or.inr h1
  · left
    unfold findIndexFwd
    rw [h1]
    omega

theorem findIndexBwd_range (l : List TimelineElement) (timeMs : ℚ) :
    -1 ≤ findIndexBwd l timeMs ∧ findIndexBwd l timeMs < (l.length : Int) := by
  rcases findIndexBwdAux_spec timeMs l 0 with ⟨h1, _⟩ | ⟨j, h1, h2, _⟩
  · unfold findIndexBwd
    rw [h1]
    omega
  · unfold findIndexBwd
    rw [h1]
    omega

/-- Forward resynchronization: when the search finds an index it is the
least index whose window has not elapsed, read through `getI`. -/
theorem findIndexFwd_found {l : List TimelineElement} {timeMs : ℚ}
    (h : 0 ≤ findIndexFwd l timeMs) :
    (∃ e, getI l (findIndexFwd l timeMs) = some e ∧ timeMs < e.endTimeMs) ∧
    ∀ (j : Int) (e : TimelineElement), 0 ≤ j → j < findIndexFwd l timeMs →
      getI l j = some e → e.endTimeMs ≤ timeMs := by
  rcases findIndexFwdAux_spec timeMs l 0 with ⟨h1, _⟩ | ⟨j, h1, h2, ⟨e, he, hte⟩, h4⟩
  · unfold findIndexFwd at h
    omega
  · have hr : findIndexFwd l timeMs = (j : Int) := by
      unfold findIndexFwd
      rw [h1]
      norm_num
    constructor
    · refine ⟨e, ?_, hte⟩
      rw [hr, getI_nat]
      exact he
    · intro j' e' hj0 hjr hg
      rw [hr] at hjr
      have : j'.toNat < j := by omega
      refine h4 j'.toNat e' this ?_
      rw [← getI_nat, show ((j'.toNat : ℕ) : Int) = j' by omega]
      exact hg

theorem findIndexFwd_none {l : List TimelineElement} {timeMs : ℚ}
    (h : findIndexFwd l timeMs = -1) :
    ∀ (j : Int) (e : TimelineElement), getI l j = some e →
      e.endTimeMs ≤ timeMs := by
  rcases findIndexFwdAux_spec timeMs l 0 with ⟨_, h2⟩ | ⟨j, h1, _, _, _⟩
  · intro j e hg
    obtain ⟨hj0, hg⟩ := getI_eq_some.mp hg
    exact h2 j.toNat e hg
  · unfold findIndexFwd at h
    rw [h] at h1
    omega

/-- Backward resynchronization: when the search finds an index it is the
greatest index whose window has already been entered. -/
theorem findIndexBwd_found {l : List TimelineElement} {timeMs : ℚ}
    (h : 0 ≤ findIndexBwd l timeMs) :
    (∃ e, getI l (findIndexBwd l timeMs) = some e ∧ e.startTimeMs < timeMs) ∧
    ∀ (j : Int) (e : TimelineElement), findIndexBwd l timeMs < j →
      getI l j = some e → timeMs ≤ e.startTimeMs := by
  rcases findIndexBwdAux_spec timeMs l 0 with ⟨h1, _⟩ | ⟨j, h1, h2, ⟨e, he, hte⟩, h4⟩
  · unfold findIndexBwd at h
    omega
  · have hr : findIndexBwd l timeMs = (j : Int) := by
      unfold findIndexBwd
      rw [h1]
      norm_num
    constructor
    · refine ⟨e, ?_, hte⟩
      rw [hr, getI_nat]
      exact he
    · intro j' e' hjr hg
      rw [hr] at hjr
      obtain ⟨hj0, hg'⟩ := getI_eq_some.mp hg
      refine h4 j'.toNat e' (by omega) ?_
      exact hg'

theorem findIndexBwd_none {l : List TimelineElement} {timeMs : ℚ}
    (h : findIndexBwd l timeMs = -1) :
    ∀ (j : Int) (e : TimelineElement), getI l j = some e →
      timeMs ≤ e.startTimeMs := by
  rcases findIndexBwdAux_spec timeMs l 0 with ⟨_, h2⟩ | ⟨j, h1, _, _, _⟩
  · intro j e hg
    obtain ⟨hj0, hg⟩ := getI_eq_some.mp hg
    exact h2 j.toNat e hg
  · unfold findIndexBwd at h
    rw [h] at h1
    omega

/-! Range facts about the resynchronized cursor. -/

/-- Case analysis of the cursor resynchronization: either the fast path
kept the cursor (its element exists and no staleness condition fired) or
the cursor was recomputed by binary search. -/
theorem setInitialElementIndex_eq (elements : List TimelineElement)
    (lastTimeMs : Option ℚ) (idx : Int) (timeMs : ℚ) (forward : Bool) :
    (Timeline.setInitialElementIndex elements lastTimeMs idx timeMs forward = idx ∧
      (∃ e, getI elements idx = some e ∧
        (∀ l, lastTimeMs = some l →
          (if forward then ¬(timeMs < l) else ¬(l < timeMs))) ∧
        (if forward then ¬(e.endTimeMs ≤ timeMs) else ¬(timeMs ≤ e.startTimeMs)))) ∨
    Timeline.setInitialElementIndex elements lastTimeMs idx timeMs forward =
      (if forward then max (findIndexFwd elements timeMs) 0
       else findIndexBwd elements timeMs) := by
  unfold Timeline.setInitialElementIndex
  cases forward with
  | true =>
    cases hL : lastTimeMs with
    | none =>
      cases hG : getI elements idx with
      | none => right; simp [hG]
      | some e =>
        by_cases hF : e.endTimeMs ≤ timeMs
        · right
          simp [hG, hF]
        · left
          refine ⟨by simp [hG, hF], e, rfl, by simp, by simpa using hF⟩
    | some l =>
      cases hG : getI elements idx with
      | none => right; simp [hG]
      | some e =>
        by_cases hB : timeMs < l
        · right
          simp [hG, hB]
        · by_cases hF : e.endTimeMs ≤ timeMs
          · right
            simp [hG, hB, hF]
          · left
            refine ⟨by simp [hG, hB, hF], e, rfl, ?_, by simpa using hF⟩
            intro l' hl'
            cases hl'
            simpa using hB
  | false =>
    cases hL : lastTimeMs with
    | none =>
      cases hG : getI elements idx with
      | none => right; simp [hG]
      | some e =>
        by_cases hF : timeMs ≤ e.startTimeMs
        · right
          simp [hG, hF]
        · left
          refine ⟨by simp [hG, hF], e, rfl, by simp, by simpa using hF⟩
    | some l =>
      cases hG : getI elements idx with
      | none => right; simp [hG]
      | some e =>
        by_cases hB : l < timeMs
        · right
          simp [hG, hB]
        · by_cases hF : timeMs ≤ e.startTimeMs
          · right
            simp [hG, hB, hF]
          · left
            refine ⟨by simp [hG, hB, hF], e, rfl, ?_, by simpa using hF⟩
            intro l' hl'
            cases hl'
            simpa using hB

theorem setInitialElementIndex_fwd_range (elements : List TimelineElement)
    (lastTimeMs : Option ℚ) (idx : Int) (timeMs : ℚ) :
    0 ≤ Timeline.setInitialElementIndex elements lastTimeMs idx timeMs true ∧
    Timeline.setInitialElementIndex elements lastTimeMs idx timeMs true ≤
      (elements.length : Int) := by
  rcases setInitialElementIndex_eq elements lastTimeMs idx timeMs true with
    ⟨heq, e, hg, _⟩ | heq
  · rw [heq]
    have := getI_lt_length hg
    omega
  · rw [heq, if_pos rfl]
    rcases findIndexFwd_range elements timeMs with ⟨h1, h2⟩ | h1 <;> omega

theorem setInitialElementIndex_bwd_range (elements : List TimelineElement)
    (lastTimeMs : Option ℚ) (idx : Int) (timeMs : ℚ) :
    -1 ≤ Timeline.setInitialElementIndex elements lastTimeMs idx timeMs false ∧
    Timeline.setInitialElementIndex elements lastTimeMs idx timeMs false <
      (elements.length : Int) := by
  rcases setInitialElementIndex_eq elements lastTimeMs idx timeMs false with
    ⟨heq, e, hg, _⟩ | heq
  · rw [heq]
    have := getI_lt_length hg
    omega
  · rw [heq, if_neg (by simp)]
    exact findIndexBwd_range elements timeMs
/-! Elimination forms of the loop guard. -/

theorem shouldAdd_fwd_some_true {elements : List TimelineElement}
    {timeMs : ℚ} {idx : Int}
    (h : Timeline.shouldAddNextElement elements timeMs true idx = some true) :
    ∃ e, getI elements idx = some e ∧ e.startTimeMs < timeMs := by
  unfold Timeline.shouldAddNextElement at h
  by_cases hex : idx < (elements.length : Int)
  · rw [if_neg (by simpa using hex)] at h
    cases hg : getI elements idx with
    | none => rw [hg] at h; exact absurd h (by simp)
    | some e =>
      rw [hg] at h
      simp only [if_pos rfl, Option.some.injEq, decide_eq_true_eq] at h
      exact ⟨e, rfl, by simpa using h⟩
  · rw [if_pos (by simpa using hex)] at h
    exact absurd h (by simp)

theorem shouldAdd_bwd_some_true {elements : List TimelineElement}
    {timeMs : ℚ} {idx : Int}
    (h : Timeline.shouldAddNextElement elements timeMs false idx = some true) :
    ∃ e, getI elements idx = some e ∧ timeMs < e.endTimeMs := by
  unfold Timeline.shouldAddNextElement at h
  by_cases hex : 0 ≤ idx
  · rw [if_neg (by simpa using hex)] at h
    cases hg : getI elements idx with
    | none => rw [hg] at h; exact absurd h (by simp)
    | some e =>
      rw [hg] at h
      simp at h
      exact ⟨e, rfl, h⟩
  · rw [if_pos (by simpa using hex)] at h
    exact absurd h (by simp)

theorem shouldAdd_fwd_some_false {elements : List TimelineElement}
    {timeMs : ℚ} {idx : Int}
    (h : Timeline.shouldAddNextElement elements timeMs true idx = some false) :
    (elements.length : Int) ≤ idx ∨
      ∃ e, getI elements idx = some e ∧ timeMs ≤ e.startTimeMs := by
  unfold Timeline.shouldAddNextElement at h
  by_cases hex : idx < (elements.length : Int)
  · rw [if_neg (by simpa using hex)] at h
    cases hg : getI elements idx with
    | none => rw [hg] at h; exact absurd h (by simp)
    | some e =>
      rw [hg] at h
      simp only [if_pos rfl, Option.some.injEq, decide_eq_false_iff_not] at h
      exact Or.inr ⟨e, rfl, le_of_not_lt (by simpa using h)⟩
  · exact Or.inl (le_of_not_lt hex)

theorem shouldAdd_bwd_some_false {elements : List TimelineElement}
    {timeMs : ℚ} {idx : Int}
    (h : Timeline.shouldAddNextElement elements timeMs false idx = some false) :
    idx < 0 ∨ ∃ e, getI elements idx = some e ∧ e.endTimeMs ≤ timeMs := by
  unfold Timeline.shouldAddNextElement at h
  by_cases hex : 0 ≤ idx
  · rw [if_neg (by simpa using hex)] at h
    cases hg : getI elements idx with
    | none => rw [hg] at h; exact absurd h (by simp)
    | some e =>
      rw [hg] at h
      simp at h
      exact Or.inr ⟨e, rfl, h⟩
  · exact Or.inl (by omega)

theorem shouldAdd_fwd_ne_none {elements : List TimelineElement}
    {timeMs : ℚ} {idx : Int} (h0 : 0 ≤ idx) :
    Timeline.shouldAddNextElement elements timeMs true idx ≠ none := by
  unfold Timeline.shouldAddNextElement
  by_cases hex : idx < (elements.length : Int)
  · rw [if_neg (by simpa using hex)]
    obtain ⟨e, hg⟩ := getI_total h0 hex
    rw [hg]
    simp
  · rw [if_pos (by simpa using hex)]
    simp

theorem shouldAdd_bwd_ne_none {elements : List TimelineElement}
    {timeMs : ℚ} {idx : Int} (hlt : idx < (elements.length : Int)) :
    Timeline.shouldAddNextElement elements timeMs false idx ≠ none := by
  unfold Timeline.shouldAddNextElement
  by_cases hex : 0 ≤ idx
  · rw [if_neg (by simpa using hex)]
    obtain ⟨e, hg⟩ := getI_total hex hlt
    rw [hg]
    simp
  · rw [if_pos (by simpa using hex)]
    simp

/-! Totality of the scan loop given enough fuel. -/

theorem scan_total_fwd (elements : List TimelineElement) (skip : Bool)
    (timeMs : ℚ) :
    ∀ (fuel : ℕ) (idx : Int) (active : List (Int × TimelineElementState))
      (builds : List Int),
    0 ≤ idx → idx ≤ (elements.length : Int) →
    (elements.length : Int) + 1 ≤ (fuel : Int) + idx →
    (Timeline.scan elements skip timeMs true fuel idx active builds).isSome := by
  intro fuel
  induction fuel with
  | zero =>
    intro idx _ _ h0 hle hf
    exfalso
    omega
  | succ fuel ih =>
    intro idx active builds h0 hle hf
    rw [Timeline.scan]
    cases hs : Timeline.shouldAddNextElement elements timeMs true idx with
    | none => exact absurd hs (shouldAdd_fwd_ne_none h0)
    | some b =>
      cases b with
      | false => simp
      | true =>
        obtain ⟨e, hg, _⟩ := shouldAdd_fwd_some_true hs
        rw [hg]
        have hlt : idx < (elements.length : Int) := (getI_lt_length hg).2
        simp only
        split
        · rw [if_true]
          exact ih (idx + 1) _ _ (by omega) (by omega) (by omega)
        · rw [if_true]
          exact ih (idx + 1) _ _ (by omega) (by omega) (by omega)

theorem scan_total_bwd (elements : List TimelineElement) (skip : Bool)
    (timeMs : ℚ) :
    ∀ (fuel : ℕ) (idx : Int) (active : List (Int × TimelineElementState))
      (builds : List Int),
    -1 ≤ idx → idx < (elements.length : Int) →
    idx + 2 ≤ (fuel : Int) →
    (Timeline.scan elements skip timeMs false fuel idx active builds).isSome := by
  intro fuel
  induction fuel with
  | zero =>
    intro idx _ _ h0 hlt hf
    exfalso
    omega
  | succ fuel ih =>
    intro idx active builds h0 hlt hf
    rw [Timeline.scan]
    cases hs : Timeline.shouldAddNextElement elements timeMs false idx with
    | none => exact absurd hs (shouldAdd_bwd_ne_none hlt)
    | some b =>
      cases b with
      | false => simp
      | true =>
        obtain ⟨e, hg, _⟩ := shouldAdd_bwd_some_true hs
        rw [hg]
        have h0' : 0 ≤ idx := (getI_lt_length hg).1
        simp only
        split
        · rw [if_neg Bool.false_ne_true]
          exact ih (idx - 1) _ _ (by omega) (by omega) (by omega)
        · rw [if_neg Bool.false_ne_true]
          exact ih (idx - 1) _ _ (by omega) (by omega) (by omega)
/-- Everything later proofs need to know about one forward scan run:
cursor movement, the pass condition on every visited index, the exit
condition, provenance of map entries, key/build correspondence, the
exact build condition, and ordering facts. -/
structure ScanFwdSpec (elements : List TimelineElement) (skip : Bool)
    (timeMs : ℚ) (idx : Int) (active : List (Int × TimelineElementState))
    (builds : List Int) (c : Int) (act : List (Int × TimelineElementState))
    (blds : List Int) : Prop where
  le : idx ≤ c
  pass : ∀ j : Int, idx ≤ j → j < c →
    ∃ e, getI elements j = some e ∧ e.startTimeMs < timeMs
  exits : (elements.length : Int) ≤ c ∨
    ∃ e, getI elements c = some e ∧ timeMs ≤ e.startTimeMs
  values : ∀ p ∈ act, p ∈ active ∨
    ∃ e, getI elements p.1 = some e ∧ p.2 = ⟨e.startTimeMs, e.endTimeMs⟩
  keys : ∀ k : Int, hasKey act k = true ↔ (hasKey active k = true ∨ k ∈ blds)
  buildMem : ∀ j : Int, j ∈ blds ↔ (j ∈ builds ∨ (idx ≤ j ∧ j < c ∧
    ∃ e, getI elements j = some e ∧
      (skip = false ∨ (timeMs < e.endTimeMs ∧ hasKey active j = false))))
  buildSorted : blds.Pairwise (· < ·)

theorem scanF_main (elements : List TimelineElement) (skip : Bool)
    (timeMs : ℚ) :
    ∀ (fuel : ℕ) (idx : Int) (active : List (Int × TimelineElementState))
      (builds : List Int) (c : Int)
      (act : List (Int × TimelineElementState)) (blds : List Int),
    Timeline.scan elements skip timeMs true fuel idx active builds =
      some (c, act, blds) →
    (∀ b ∈ builds, hasKey active b = true) →
    builds.Pairwise (· < ·) →
    (∀ b ∈ builds, b < idx) →
    ScanFwdSpec elements skip timeMs idx active builds c act blds := by
  intro fuel
  induction fuel with
  | zero =>
    intro idx active builds c act blds h
    rw [Timeline.scan] at h
    exact absurd h (by simp)
  | succ fuel ih =>
    intro idx active builds c act blds h hbk hbs hbi
    rw [Timeline.scan] at h
    cases hs : Timeline.shouldAddNextElement elements timeMs true idx with
    | none => rw [hs] at h; exact absurd h (by simp)
    | some b =>
      rw [hs] at h
      cases b with
      | false =>
        simp only [Option.some.injEq, Prod.mk.injEq] at h
        obtain ⟨rfl, rfl, rfl⟩ := h
        refine ⟨le_refl _, ?_, ?_, ?_, ?_, ?_, hbs⟩
        · intro j h1 h2
          omega
        · rcases shouldAdd_fwd_some_false hs with h1 | ⟨e, hg, he⟩
          · exact Or.inl h1
          · exact Or.inr ⟨e, hg, he⟩
        · intro p hp
          exact Or.inl hp
        · intro k
          constructor
          · exact fun hk => Or.inl hk
          · intro hk
            rcases hk with hk | hk
            · exact hk
            · exact hbk k hk
        · intro j
          constructor
          · exact fun hj => Or.inl hj
          · intro hj
            rcases hj with hj | ⟨h1, h2, _⟩
            · exact hj
            · omega
      | true =>
        obtain ⟨e, hg, hstart⟩ := shouldAdd_fwd_some_true hs
        rw [hg] at h
        simp only at h
        rw [if_true] at h
        by_cases hcond :
            (!skip || (!(decide (e.endTimeMs ≤ timeMs)) &&
              !(hasKey active idx))) = true
        · rw [if_pos hcond] at h
          have hS := ih (idx + 1)
            (mapSet active idx ⟨e.startTimeMs, e.endTimeMs⟩)
            (builds ++ [idx]) c act blds h
            (by
              intro b hb
              rw [List.mem_append] at hb
              rcases hb with hb | hb
              · exact hasKey_mapSet.mpr (Or.inl (hbk b hb))
              · simp only [List.mem_singleton] at hb
                subst hb
                exact hasKey_mapSet.mpr (Or.inr rfl))
            (by
              rw [List.pairwise_append]
              exact ⟨hbs, by simp, by
                intro a ha b hb
                simp only [List.mem_singleton] at hb
                subst hb
                exact hbi a ha⟩)
            (by
              intro b hb
              rw [List.mem_append] at hb
              rcases hb with hb | hb
              · have := hbi b hb
                omega
              · simp only [List.mem_singleton] at hb
                omega)
          have hidx_blds : idx ∈ blds := by
            rw [hS.buildMem idx]
            left
            simp
          refine ⟨by have := hS.le; omega, ?_, hS.exits, ?_, ?_, ?_,
            hS.buildSorted⟩
          · intro j h1 h2
            by_cases hji : j = idx
            · subst hji
              exact ⟨e, hg, hstart⟩
            · exact hS.pass j (by omega) h2
          · intro p hp
            rcases hS.values p hp with hp' | hp'
            · rcases mem_mapSet hp' with hp'' | hp''
              · exact Or.inl hp''
              · right
                refine ⟨e, ?_, ?_⟩
                · rw [hp'']
                  exact hg
                · rw [hp'']
            · exact Or.inr hp'
          · intro k
            rw [hS.keys k, hasKey_mapSet]
            constructor
            · intro hk
              rcases hk with (hk | rfl) | hk
              · exact Or.inl hk
              · exact Or.inr hidx_blds
              · exact Or.inr hk
            · intro hk
              rcases hk with hk | hk
              · exact Or.inl (Or.inl hk)
              · exact Or.inr hk
          · intro j
            rw [hS.buildMem j]
            constructor
            · intro hj
              rcases hj with hj | ⟨h1, h2, e', hg', hcond'⟩
              · rw [List.mem_append] at hj
                rcases hj with hj | hj
                · exact Or.inl hj
                · simp only [List.mem_singleton] at hj
                  subst hj
                  right
                  refine ⟨le_refl _, by have := hS.le; omega, e, hg, ?_⟩
                  rcases Bool.or_eq_true _ _ |>.mp hcond with hsk | hco
                  · exact Or.inl (by simpa using hsk)
                  · rw [Bool.and_eq_true] at hco
                    right
                    refine ⟨by simpa using hco.1, by simpa using hco.2⟩
              · right
                refine ⟨by omega, h2, e', hg', ?_⟩
                rcases hcond' with hsk | ⟨ht, hk⟩
                · exact Or.inl hsk
                · right
                  refine ⟨ht, ?_⟩
                  by_contra hne
                  rw [Bool.not_eq_false] at hne
                  have hms : hasKey (mapSet active idx
                      ⟨e.startTimeMs, e.endTimeMs⟩) j = true :=
                    hasKey_mapSet.mpr (Or.inl hne)
                  rw [hms] at hk
                  exact absurd hk (by simp)
            · intro hj
              rcases hj with hj | ⟨h1, h2, e', hg', hcond'⟩
              · exact Or.inl (List.mem_append.mpr (Or.inl hj))
              · by_cases hji : j = idx
                · subst hji
                  exact Or.inl (List.mem_append.mpr (Or.inr (by simp)))
                · right
                  refine ⟨by omega, h2, e', hg', ?_⟩
                  rcases hcond' with hsk | ⟨ht, hk⟩
                  · exact Or.inl hsk
                  · right
                    refine ⟨ht, ?_⟩
                    rw [Bool.eq_false_iff]
                    intro hkk
                    rcases hasKey_mapSet.mp hkk with hkk' | hkk'
                    · rw [hkk'] at hk
                      exact absurd hk (by simp)
                    · exact hji hkk'
        · rw [if_neg hcond] at h
          have hS := ih (idx + 1) active builds c act blds h hbk hbs
            (by intro b hb; have := hbi b hb; omega)
          have hnb : skip = true ∧
              (e.endTimeMs ≤ timeMs ∨ hasKey active idx = true) := by
            by_cases hsk : skip = true
            · refine ⟨hsk, ?_⟩
              by_cases hend : e.endTimeMs ≤ timeMs
              · exact Or.inl hend
              · by_cases hact : hasKey active idx = true
                · exact Or.inr hact
                · exfalso
                  apply hcond
                  have h1 : decide (e.endTimeMs ≤ timeMs) = false :=
                    decide_eq_false hend
                  have h2 : hasKey active idx = false :=
                    Bool.eq_false_iff.mpr hact
                  rw [h1, h2]
                  simp
            · exfalso
              apply hcond
              have h1 : skip = false := Bool.eq_false_iff.mpr hsk
              rw [h1]
              simp
          refine ⟨by have := hS.le; omega, ?_, hS.exits, hS.values, hS.keys,
            ?_, hS.buildSorted⟩
          · intro j h1 h2
            by_cases hji : j = idx
            · subst hji
              exact ⟨e, hg, hstart⟩
            · exact hS.pass j (by omega) h2
          · intro j
            rw [hS.buildMem j]
            constructor
            · intro hj
              rcases hj with hj | ⟨h1, h2, e', hg', hcond'⟩
              · exact Or.inl hj
              · exact Or.inr ⟨by omega, h2, e', hg', hcond'⟩
            · intro hj
              rcases hj with hj | ⟨h1, h2, e', hg', hcond'⟩
              · exact Or.inl hj
              · by_cases hji : j = idx
                · subst hji
                  rw [hg] at hg'
                  cases hg'
                  exfalso
                  rcases hcond' with hsk | ⟨ht, hk⟩
                  · rw [hnb.1] at hsk
                    exact absurd hsk (by simp)
                  · rcases hnb.2 with hend | hact
                    · exact absurd hend (not_le.mpr ht)
                    · rw [hact] at hk
                      exact absurd hk (by simp)
                · exact Or.inr ⟨by omega, h2, e', hg', hcond'⟩
/-- Backward-scan counterpart of `ScanFwdSpec`. -/
structure ScanBwdSpec (elements : List TimelineElement) (skip : Bool)
    (timeMs : ℚ) (idx : Int) (active : List (Int × TimelineElementState))
    (builds : List Int) (c : Int) (act : List (Int × TimelineElementState))
    (blds : List Int) : Prop where
  le : c ≤ idx
  pass : ∀ j : Int, c < j → j ≤ idx →
    ∃ e, getI elements j = some e ∧ timeMs < e.endTimeMs
  exits : c < 0 ∨ ∃ e, getI elements c = some e ∧ e.endTimeMs ≤ timeMs
  values : ∀ p ∈ act, p ∈ active ∨
    ∃ e, getI elements p.1 = some e ∧ p.2 = ⟨e.startTimeMs, e.endTimeMs⟩
  keys : ∀ k : Int, hasKey act k = true ↔ (hasKey active k = true ∨ k ∈ blds)
  buildMem : ∀ j : Int, j ∈ blds ↔ (j ∈ builds ∨ (c < j ∧ j ≤ idx ∧
    ∃ e, getI elements j = some e ∧
      (skip = false ∨ hasKey active j = false)))
  buildSorted : blds.Pairwise (· > ·)

theorem scanB_main (elements : List TimelineElement) (skip : Bool)
    (timeMs : ℚ) :
    ∀ (fuel : ℕ) (idx : Int) (active : List (Int × TimelineElementState))
      (builds : List Int) (c : Int)
      (act : List (Int × TimelineElementState)) (blds : List Int),
    Timeline.scan elements skip timeMs false fuel idx active builds =
      some (c, act, blds) →
    (∀ b ∈ builds, hasKey active b = true) →
    builds.Pairwise (· > ·) →
    (∀ b ∈ builds, idx < b) →
    ScanBwdSpec elements skip timeMs idx active builds c act blds := by
  intro fuel
  induction fuel with
  | zero =>
    intro idx active builds c act blds h
    rw [Timeline.scan] at h
    exact absurd h (by simp)
  | succ fuel ih =>
    intro idx active builds c act blds h hbk hbs hbi
    rw [Timeline.scan] at h
    cases hs : Timeline.shouldAddNextElement elements timeMs false idx with
    | none => rw [hs] at h; exact absurd h (by simp)
    | some b =>
      rw [hs] at h
      cases b with
      | false =>
        simp only [Option.some.injEq, Prod.mk.injEq] at h
        obtain ⟨rfl, rfl, rfl⟩ := h
        refine ⟨le_refl _, ?_, ?_, ?_, ?_, ?_, hbs⟩
        · intro j h1 h2
          omega
        · rcases shouldAdd_bwd_some_false hs with h1 | ⟨e, hg, he⟩
          · exact Or.inl h1
          · exact Or.inr ⟨e, hg, he⟩
        · intro p hp
          exact Or.inl hp
        · intro k
          constructor
          · exact fun hk => Or.inl hk
          · intro hk
            rcases hk with hk | hk
            · exact hk
            · exact hbk k hk
        · intro j
          constructor
          · exact fun hj => Or.inl hj
          · intro hj
            rcases hj with hj | ⟨h1, h2, _⟩
            · exact hj
            · omega
      | true =>
        obtain ⟨e, hg, hend⟩ := shouldAdd_bwd_some_true hs
        rw [hg] at h
        simp only at h
        rw [if_neg Bool.false_ne_true] at h
        by_cases hcond :
            (!skip || (!(decide (e.endTimeMs ≤ timeMs)) &&
              !(hasKey active idx))) = true
        · rw [if_pos hcond] at h
          have hS := ih (idx - 1)
            (mapSet active idx ⟨e.startTimeMs, e.endTimeMs⟩)
            (builds ++ [idx]) c act blds h
            (by
              intro b hb
              rw [List.mem_append] at hb
              rcases hb with hb | hb
              · exact hasKey_mapSet.mpr (Or.inl (hbk b hb))
              · simp only [List.mem_singleton] at hb
                subst hb
                exact hasKey_mapSet.mpr (Or.inr rfl))
            (by
              rw [List.pairwise_append]
              exact ⟨hbs, by simp, by
                intro a ha b hb
                simp only [List.mem_singleton] at hb
                subst hb
                exact hbi a ha⟩)
            (by
              intro b hb
              rw [List.mem_append] at hb
              rcases hb with hb | hb
              · have := hbi b hb
                omega
              · simp only [List.mem_singleton] at hb
                omega)
          have hidx_blds : idx ∈ blds := by
            rw [hS.buildMem idx]
            left
            simp
          refine ⟨by have := hS.le; omega, ?_, hS.exits, ?_, ?_, ?_,
            hS.buildSorted⟩
          · intro j h1 h2
            by_cases hji : j = idx
            · subst hji
              exact ⟨e, hg, hend⟩
            · exact hS.pass j h1 (by omega)
          · intro p hp
            rcases hS.values p hp with hp' | hp'
            · rcases mem_mapSet hp' with hp'' | hp''
              · exact Or.inl hp''
              · right
                refine ⟨e, ?_, ?_⟩
                · rw [hp'']
                  exact hg
                · rw [hp'']
            · exact Or.inr hp'
          · intro k
            rw [hS.keys k, hasKey_mapSet]
            constructor
            · intro hk
              rcases hk with (hk | rfl) | hk
              · exact Or.inl hk
              · exact Or.inr hidx_blds
              · exact Or.inr hk
            · intro hk
              rcases hk with hk | hk
              · exact Or.inl (Or.inl hk)
              · exact Or.inr hk
          · intro j
            rw [hS.buildMem j]
            constructor
            · intro hj
              rcases hj with hj | ⟨h1, h2, e', hg', hcond'⟩
              · rw [List.mem_append] at hj
                rcases hj with hj | hj
                · exact Or.inl hj
                · simp only [List.mem_singleton] at hj
                  subst hj
                  right
                  refine ⟨by have := hS.le; omega, le_refl _, e, hg, ?_⟩
                  rcases Bool.or_eq_true _ _ |>.mp hcond with hsk | hco
                  · exact Or.inl (by simpa using hsk)
                  · rw [Bool.and_eq_true] at hco
                    exact Or.inr (by simpa using hco.2)
              · right
                refine ⟨h1, by omega, e', hg', ?_⟩
                rcases hcond' with hsk | hk
                · exact Or.inl hsk
                · right
                  by_contra hne
                  rw [Bool.not_eq_false] at hne
                  have hms : hasKey (mapSet active idx
                      ⟨e.startTimeMs, e.endTimeMs⟩) j = true :=
                    hasKey_mapSet.mpr (Or.inl hne)
                  rw [hms] at hk
                  exact absurd hk (by simp)
            · intro hj
              rcases hj with hj | ⟨h1, h2, e', hg', hcond'⟩
              · exact Or.inl (List.mem_append.mpr (Or.inl hj))
              · by_cases hji : j = idx
                · subst hji
                  exact Or.inl (List.mem_append.mpr (Or.inr (by simp)))
                · right
                  refine ⟨h1, by omega, e', hg', ?_⟩
                  rcases hcond' with hsk | hk
                  · exact Or.inl hsk
                  · right
                    rw [Bool.eq_false_iff]
                    intro hkk
                    rcases hasKey_mapSet.mp hkk with hkk' | hkk'
                    · rw [hkk'] at hk
                      exact absurd hk (by simp)
                    · exact hji hkk'
        · rw [if_neg hcond] at h
          have hS := ih (idx - 1) active builds c act blds h hbk hbs
            (by intro b hb; have := hbi b hb; omega)
          have hnb : skip = true ∧ hasKey active idx = true := by
            by_cases hsk : skip = true
            · refine ⟨hsk, ?_⟩
              by_cases hact : hasKey active idx = true
              · exact hact
              · exfalso
                apply hcond
                have h1 : decide (e.endTimeMs ≤ timeMs) = false :=
                  decide_eq_false (not_le.mpr hend)
                have h2 : hasKey active idx = false :=
                  Bool.eq_false_iff.mpr hact
                rw [h1, h2]
                simp
            · exfalso
              apply hcond
              have h1 : skip = false := Bool.eq_false_iff.mpr hsk
              rw [h1]
              simp
          refine ⟨by have := hS.le; omega, ?_, hS.exits, hS.values, hS.keys,
            ?_, hS.buildSorted⟩
          · intro j h1 h2
            by_cases hji : j = idx
            · subst hji
              exact ⟨e, hg, hend⟩
            · exact hS.pass j h1 (by omega)
          · intro j
            rw [hS.buildMem j]
            constructor
            · intro hj
              rcases hj with hj | ⟨h1, h2, e', hg', hcond'⟩
              · exact Or.inl hj
              · exact Or.inr ⟨h1, by omega, e', hg', hcond'⟩
            · intro hj
              rcases hj with hj | ⟨h1, h2, e', hg', hcond'⟩
              · exact Or.inl hj
              · by_cases hji : j = idx
                · subst hji
                  rw [hg] at hg'
                  cases hg'
                  exfalso
                  rcases hcond' with hsk | hk
                  · rw [hnb.1] at hsk
                    exact absurd hsk (by simp)
                  · rw [hnb.2] at hk
                    exact absurd hk (by simp)
                · exact Or.inr ⟨h1, by omega, e', hg', hcond'⟩
/-- Decomposition of a successful `update` call into its scan and
reconciliation phases. -/
theorem update_spec {t : Timeline} {timeMs : ℚ} {forward : Bool}
    {t' : Timeline} {ev : UpdateEvents}
    (h : Timeline.update t timeMs forward = some (t', ev)) :
    ∃ (c : Int) (actMid : List (Int × TimelineElementState)),
    Timeline.scan t.elements t.allowSkippingElements timeMs forward
      (t.elements.length + 1)
      (Timeline.setInitialElementIndex t.elements t.lastTimeMs
        (t.nextElementIndex.getD
          (if forward then 0 else (t.elements.length : Int) - 1))
        timeMs forward)
      t.activeElements [] = some (c, actMid, ev.builds) ∧
    t'.elements = t.elements ∧
    t'.allowSkippingElements = t.allowSkippingElements ∧
    t'.activeElements = actMid.filter (fun p => inWindow timeMs p.2) ∧
    t'.lastTimeMs = some timeMs ∧
    t'.nextElementIndex = some c ∧
    ev.updated = (actMid.filter (fun p => inWindow timeMs p.2)).map Prod.fst ∧
    ev.destroyed =
      (actMid.filter (fun p => !inWindow timeMs p.2)).map Prod.fst := by
  unfold Timeline.update at h
  simp only at h
  cases hscan : Timeline.scan t.elements t.allowSkippingElements timeMs forward
      (t.elements.length + 1)
      (Timeline.setInitialElementIndex t.elements t.lastTimeMs
        (t.nextElementIndex.getD
          (if forward then 0 else (t.elements.length : Int) - 1))
        timeMs forward)
      t.activeElements [] with
  | none => rw [hscan] at h; exact absurd h (by simp)
  | some r =>
    obtain ⟨c, actMid, blds⟩ := r
    rw [hscan] at h
    simp only [Timeline.reconcile, Option.some.injEq, Prod.mk.injEq] at h
    obtain ⟨ht', hev⟩ := h
    subst ht'
    subst hev
    exact ⟨c, actMid, rfl, rfl, rfl, rfl, rfl, rfl, rfl, rfl⟩

/-- Totality of `update`: for every state, time and direction the call
returns normally. -/
theorem update_total (t : Timeline) (timeMs : ℚ) (forward : Bool) :
    (Timeline.update t timeMs forward).isSome := by
  unfold Timeline.update
  simp only
  cases forward with
  | true =>
    obtain ⟨h0, hle⟩ := setInitialElementIndex_fwd_range t.elements
      t.lastTimeMs (t.nextElementIndex.getD 0) timeMs
    have := scan_total_fwd t.elements t.allowSkippingElements timeMs
      (t.elements.length + 1)
      (Timeline.setInitialElementIndex t.elements t.lastTimeMs
        (t.nextElementIndex.getD 0) timeMs true)
      t.activeElements [] h0 hle (by push_cast; omega)
    rw [Option.isSome_iff_exists] at this
    obtain ⟨⟨c, actMid, blds⟩, hr⟩ := this
    rw [show (if true = true then (0 : Int)
        else (t.elements.length : Int) - 1) = 0 from rfl, hr]
    simp
  | false =>
    obtain ⟨h0, hlt⟩ := setInitialElementIndex_bwd_range t.elements
      t.lastTimeMs (t.nextElementIndex.getD ((t.elements.length : Int) - 1))
      timeMs
    have := scan_total_bwd t.elements t.allowSkippingElements timeMs
      (t.elements.length + 1)
      (Timeline.setInitialElementIndex t.elements t.lastTimeMs
        (t.nextElementIndex.getD ((t.elements.length : Int) - 1))
        timeMs false)
      t.activeElements [] h0 hlt (by push_cast; omega)
    rw [Option.isSome_iff_exists] at this
    obtain ⟨⟨c, actMid, blds⟩, hr⟩ := this
    rw [show (if false = true then (0 : Int)
        else (t.elements.length : Int) - 1) = (t.elements.length : Int) - 1
      from rfl, hr]
    simp
/-- The scan phase preserves distinctness of active-map keys (either
direction). -/
theorem scan_keysNodup (elements : List TimelineElement) (skip : Bool)
    (timeMs : ℚ) (forward : Bool) :
    ∀ (fuel : ℕ) (idx : Int) (active : List (Int × TimelineElementState))
      (builds : List Int) (c : Int)
      (act : List (Int × TimelineElementState)) (blds : List Int),
    Timeline.scan elements skip timeMs forward fuel idx active builds =
      some (c, act, blds) →
    (active.map Prod.fst).Nodup → (act.map Prod.fst).Nodup := by
  intro fuel
  induction fuel with
  | zero =>
    intro idx active builds c act blds h
    rw [Timeline.scan] at h
    exact absurd h (by simp)
  | succ fuel ih =>
    intro idx active builds c act blds h hnd
    rw [Timeline.scan] at h
    cases hs : Timeline.shouldAddNextElement elements timeMs forward idx with
    | none => rw [hs] at h; exact absurd h (by simp)
    | some b =>
      rw [hs] at h
      cases b with
      | false =>
        simp only [Option.some.injEq, Prod.mk.injEq] at h
        obtain ⟨rfl, rfl, rfl⟩ := h
        exact hnd
      | true =>
        cases hg : getI elements idx with
        | none => rw [hg] at h; exact absurd h (by simp)
        | some e =>
          rw [hg] at h
          simp only at h
          split at h
          · exact ih _ _ _ c act blds h (mapSet_keys_nodup hnd)
          · exact ih _ _ _ c act blds h hnd
/-- C9: `update` never fails.  For every timeline state, every finite
time value and either direction flag, the call is total: every internal
array access is within bounds or guarded (a `none` result would model a
thrown `TypeError` or a non-terminating scan), even on an empty
descriptor array or a backward scan with no remaining index. -/
theorem c9_update_total : ∀ (t : Timeline) (timeMs : ℚ) (forward : Bool),
    (Timeline.update t timeMs forward).isSome = true :=
  fun t timeMs forward => update_total t timeMs forward

/-- C4: with element skipping enabled, an update that seeks to a time at
or past a descriptor's end time builds no payload for that descriptor if
it is not currently active — the scan silently advances past it, in
either direction. -/
theorem c4_skip_no_build (t : Timeline) (timeMs : ℚ) (forward : Bool)
    (j : Int) (e : TimelineElement) (t' : Timeline) (ev : UpdateEvents)
    (hskip : t.allowSkippingElements = true)
    (hj : getI t.elements j = some e)
    (hended : e.endTimeMs ≤ timeMs)
    (hnotactive : hasKey t.activeElements j = false)
    (hupd : Timeline.update t timeMs forward = some (t', ev)) :
    j ∉ ev.builds := by
  obtain ⟨c, actMid, hscan, -, -, -, -, -, -, -⟩ := update_spec hupd
  intro hmem
  cases forward with
  | true =>
    have S := scanF_main t.elements t.allowSkippingElements timeMs _ _ _ _
      _ _ _ hscan (by simp) (by simp) (by simp)
    rcases (S.buildMem j).mp hmem with hj' | ⟨-, -, e', hg', hcond⟩
    · simp at hj'
    · rw [hj] at hg'
      cases hg'
      rcases hcond with hsk | ⟨ht, -⟩
      · rw [hskip] at hsk
        exact absurd hsk (by simp)
      · exact absurd hended (not_le.mpr ht)
  | false =>
    have S := scanB_main t.elements t.allowSkippingElements timeMs _ _ _ _
      _ _ _ hscan (by simp) (by simp) (by simp)
    rcases (S.buildMem j).mp hmem with hj' | ⟨h1, h2, e', hg', -⟩
    · simp at hj'
    · obtain ⟨e'', hg'', hend''⟩ := S.pass j h1 h2
      rw [hj] at hg''
      cases hg''
      exact absurd hended (not_le.mpr hend'')

/-- C4 witness: a fresh-cursor skip-enabled timeline seeked to `50`,
far past the only descriptor `[0,10)`; the update builds nothing. -/
theorem c4_skip_no_build_witness :
    Timeline.update ⟨[⟨0, 10⟩], true, [], some 0, some 0⟩ 50 true =
      some (⟨[⟨0, 10⟩], true, [], some 50, some 1⟩, ⟨[], [], []⟩) ∧
    (0 : Int) ∉ (⟨[], [], []⟩ : UpdateEvents).builds :=
  ⟨by decide,
   c4_skip_no_build ⟨[⟨0, 10⟩], true, [], some 0, some 0⟩ 50 true 0 ⟨0, 10⟩
     ⟨[⟨0, 10⟩], true, [], some 50, some 1⟩ ⟨[], [], []⟩ rfl (by decide)
     (by norm_num) (by decide) (by decide)⟩

/-- C10: with element skipping enabled, no update call ever builds a
descriptor index that is already present in the active set, so each key
maps to at most one built instance at a time. -/
theorem c10_no_rebuild (t : Timeline) (timeMs : ℚ) (forward : Bool)
    (j : Int) (t' : Timeline) (ev : UpdateEvents)
    (hskip : t.allowSkippingElements = true)
    (hactive : hasKey t.activeElements j = true)
    (hupd : Timeline.update t timeMs forward = some (t', ev)) :
    j ∉ ev.builds := by
  obtain ⟨c, actMid, hscan, -, -, -, -, -, -, -⟩ := update_spec hupd
  intro hmem
  cases forward with
  | true =>
    have S := scanF_main t.elements t.allowSkippingElements timeMs _ _ _ _
      _ _ _ hscan (by simp) (by simp) (by simp)
    rcases (S.buildMem j).mp hmem with hj' | ⟨-, -, e', -, hcond⟩
    · simp at hj'
    · rcases hcond with hsk | ⟨-, hk⟩
      · rw [hskip] at hsk
        exact absurd hsk (by simp)
      · rw [hactive] at hk
        exact absurd hk (by simp)
  | false =>
    have S := scanB_main t.elements t.allowSkippingElements timeMs _ _ _ _
      _ _ _ hscan (by simp) (by simp) (by simp)
    rcases (S.buildMem j).mp hmem with hj' | ⟨-, -, e', -, hcond⟩
    · simp at hj'
    · rcases hcond with hsk | hk
      · rw [hskip] at hsk
        exact absurd hsk (by simp)
      · rw [hactive] at hk
        exact absurd hk (by simp)

/-- C10 witness: a backward resynchronization lands the cursor behind an
already-active entry and re-crosses it without rebuilding (the update
ticks it, builds nothing). -/
theorem c10_no_rebuild_witness :
    Timeline.update ⟨[⟨0, 1000⟩], true, [(0, ⟨0, 1000⟩)], some 900, some 1⟩
      300 false =
      some (⟨[⟨0, 1000⟩], true, [(0, ⟨0, 1000⟩)], some 300, some (-1)⟩,
        ⟨[], [0], []⟩) ∧
    (0 : Int) ∉ (⟨[], [0], []⟩ : UpdateEvents).builds :=
  ⟨by decide,
   c10_no_rebuild ⟨[⟨0, 1000⟩], true, [(0, ⟨0, 1000⟩)], some 900, some 1⟩
     300 false 0
     ⟨[⟨0, 1000⟩], true, [(0, ⟨0, 1000⟩)], some 300, some (-1)⟩
     ⟨[], [0], []⟩ rfl (by decide) (by decide)⟩
set_option maxHeartbeats 1000000 in
/-- C2: behavior of the code at the failing input.  With a still-in-bounds
voice and a drift of only `5 ms` (`|1005 - 1000| <= 20`), `seek` still
issues a seek command to the sound handle — the unconditional
`sound.seek(seekTimeMs / 1000, soundId)` that precedes the bounds and
tolerance checks — and with a drift of `100 ms` it issues the same seek
twice (the above-tolerance branch repeats it), not exactly once. -/
theorem c2_unconditional_seek :
    seekVoice 1000 1005 ⟨⟨0⟩, some ⟨true, 10⟩⟩ =
      [SoundCmd.seekTo (101 / 100)] ∧
    seekVoice 1000 1100 ⟨⟨0⟩, some ⟨true, 10⟩⟩ =
      [SoundCmd.seekTo (6 / 5), SoundCmd.seekTo (6 / 5)] := by
  constructor
  · simp only [seekVoice]
    norm_num
  · simp only [seekVoice]
    norm_num

set_option maxHeartbeats 1000000 in
/-- C5 counterexample: sample starting at `1000 ms` with a playable
duration of `500 ms` (`0.5 s`), voice playing, clock at `1600 ms` with no
drift.  The recomputed relative position is `600 ms`, at or past the
sample's playable duration, so the claim demands a hard stop of the
playing voice; the code compares the relative position against the
absolute end time `startTime + duration = 1500 ms` instead, finds it
"in bounds", and issues no stop. -/
theorem c5_counterexample :
    seekVoice 1600 1600 ⟨⟨1000⟩, some ⟨true, 1 / 2⟩⟩ =
      [SoundCmd.seekTo (3 / 5)] ∧
    SoundCmd.stop ∉ seekVoice 1600 1600 ⟨⟨1000⟩, some ⟨true, 1 / 2⟩⟩ := by
  have h : seekVoice 1600 1600 ⟨⟨1000⟩, some ⟨true, 1 / 2⟩⟩ =
      [SoundCmd.seekTo (3 / 5)] := by
    simp only [seekVoice]
    norm_num
  refine ⟨h, ?_⟩
  rw [h]
  simp

/-- C5 (amended): for an active voice, when the recomputed relative
position `(time - startTime) + (time - lastTime)` falls before `0` or at
or past the absolute end time `sample.startTime + duration` (the code
compares the relative position against that absolute quantity, not
against the playable duration itself), the voice is stopped exactly when
it is currently playing; otherwise `seek` never stops it. -/
theorem c5_stop_semantics (lastTimeMs timeMs : ℚ)
    (inst : AudioTimelineInstance) (sound : HowlVoice)
    (hs : inst.sound = some sound) :
    ((((timeMs - inst.sample.startTime) + (timeMs - lastTimeMs) < 0 ∨
        inst.sample.startTime + sound.durationSec * 1000 ≤
          (timeMs - inst.sample.startTime) + (timeMs - lastTimeMs))) →
      (SoundCmd.stop ∈ seekVoice lastTimeMs timeMs inst ↔
        sound.playing = true)) ∧
    (¬((timeMs - inst.sample.startTime) + (timeMs - lastTimeMs) < 0 ∨
        inst.sample.startTime + sound.durationSec * 1000 ≤
          (timeMs - inst.sample.startTime) + (timeMs - lastTimeMs)) →
      SoundCmd.stop ∉ seekVoice lastTimeMs timeMs inst) := by
  unfold seekVoice
  rw [hs]
  simp only
  constructor
  · intro hoob
    rw [if_pos hoob]
    cases hp : sound.playing with
    | true => simp
    | false => simp
  · intro hoob
    rw [if_neg hoob]
    split <;> simp
/-- C8: cursor resynchronization semantics (the binary search itself is
modelled from the spec, since `BinarySearch.findIndex` lives in the
external `osu-classes` package).  The recomputed cursor is either kept
(fast path) or set to the binary-search result; a found forward index is
the first index with `time < endTime` (everything before it has
elapsed), a found backward index is the first index in scan direction —
the greatest — with `startTime < time`; when no index satisfies the
predicate the forward cursor clamps to `0` while the backward cursor
becomes `-1` ("no index"), after which a backward update builds
nothing. -/
theorem c8_cursor_resync (elements : List TimelineElement) (timeMs : ℚ) :
    (∀ (lastTimeMs : Option ℚ) (idx : Int),
      Timeline.setInitialElementIndex elements lastTimeMs idx timeMs true =
        idx ∨
      Timeline.setInitialElementIndex elements lastTimeMs idx timeMs true =
        max (findIndexFwd elements timeMs) 0) ∧
    (∀ (lastTimeMs : Option ℚ) (idx : Int),
      Timeline.setInitialElementIndex elements lastTimeMs idx timeMs false =
        idx ∨
      Timeline.setInitialElementIndex elements lastTimeMs idx timeMs false =
        findIndexBwd elements timeMs) ∧
    (0 ≤ findIndexFwd elements timeMs →
      (∃ e, getI elements (findIndexFwd elements timeMs) = some e ∧
        timeMs < e.endTimeMs) ∧
      ∀ (j : Int) (e : TimelineElement), 0 ≤ j →
        j < findIndexFwd elements timeMs → getI elements j = some e →
        e.endTimeMs ≤ timeMs) ∧
    (findIndexFwd elements timeMs = -1 →
      (∀ (j : Int) (e : TimelineElement), getI elements j = some e →
        e.endTimeMs ≤ timeMs) ∧
      max (findIndexFwd elements timeMs) 0 = 0) ∧
    (0 ≤ findIndexBwd elements timeMs →
      (∃ e, getI elements (findIndexBwd elements timeMs) = some e ∧
        e.startTimeMs < timeMs) ∧
      ∀ (j : Int) (e : TimelineElement), findIndexBwd elements timeMs < j →
        getI elements j = some e → timeMs ≤ e.startTimeMs) ∧
    (findIndexBwd elements timeMs = -1 →
      (∀ (j : Int) (e : TimelineElement), getI elements j = some e →
        timeMs ≤ e.startTimeMs) ∧
      ∀ (t t' : Timeline) (ev : UpdateEvents), t.elements = elements →
        Timeline.update t timeMs false = some (t', ev) →
        ev.builds = [] ∧ t'.nextElementIndex = some (-1)) := by
  refine ⟨?_, ?_, ?_, ?_, ?_, ?_⟩
  · intro lastTimeMs idx
    rcases setInitialElementIndex_eq elements lastTimeMs idx timeMs true with
      ⟨heq, -⟩ | heq
    · exact Or.inl heq
    · right
      rw [heq, if_pos rfl]
  · intro lastTimeMs idx
    rcases setInitialElementIndex_eq elements lastTimeMs idx timeMs false with
      ⟨heq, -⟩ | heq
    · exact Or.inl heq
    · right
      rw [heq, if_neg (by simp)]
  · intro h
    obtain ⟨h1, h2⟩ := findIndexFwd_found h
    exact ⟨h1, fun j e hj0 hjlt hg => h2 j e hj0 hjlt hg⟩
  · intro h
    refine ⟨findIndexFwd_none h, by rw [h]; rfl⟩
  · intro h
    obtain ⟨h1, h2⟩ := findIndexBwd_found h
    exact ⟨h1, fun j e hjgt hg => h2 j e hjgt hg⟩
  · intro h
    refine ⟨findIndexBwd_none h, ?_⟩
    intro t t' ev helems hupd
    obtain ⟨c, actMid, hscan, -, -, -, -, hnei, -, -⟩ := update_spec hupd
    rw [helems] at hscan
    have hstart : Timeline.setInitialElementIndex elements t.lastTimeMs
        (t.nextElementIndex.getD
          (if false then 0 else (elements.length : Int) - 1)) timeMs false =
        -1 := by
      rcases setInitialElementIndex_eq elements t.lastTimeMs
          (t.nextElementIndex.getD
            (if false then 0 else (elements.length : Int) - 1))
          timeMs false with ⟨heq, e, hg, -, hsf⟩ | heq
      · exfalso
        have := findIndexBwd_none h _ e hg
        rw [if_neg (by simp)] at hsf
        exact hsf this
      · rw [heq, if_neg (by simp)]
        exact h
    rw [hstart] at hscan
    have S := scanB_main elements t.allowSkippingElements timeMs _ _ _ _
      _ _ _ hscan (by simp) (by simp) (by simp)
    constructor
    · rw [List.eq_nil_iff_forall_not_mem]
      intro j hj
      rcases (S.buildMem j).mp hj with hj' | ⟨h1, h2, e', hg', -⟩
      · simp at hj'
      · have hle := S.le
        have := (getI_lt_length hg').1
        omega
    · have hle := S.le
      have hc : c = -1 := by
        by_contra hne
        obtain ⟨e', hg', -⟩ := S.pass (-1) (by omega) (by omega)
        have := (getI_lt_length hg').1
        omega
      rw [hnei, hc]
/-- C8 witness: over descriptors `[0,1000) [500,1500) [2000,3000)`, the
forward search at `2500` finds index `2` (the first not-yet-elapsed
window) and everything before it has elapsed; the backward search at `0`
finds no index, and a backward update at `0` from a fresh timeline
builds nothing and leaves the cursor at `-1`. -/
theorem c8_cursor_resync_witness :
    ((∃ e, getI [(⟨0, 1000⟩ : TimelineElement), ⟨500, 1500⟩, ⟨2000, 3000⟩]
        (findIndexFwd [⟨0, 1000⟩, ⟨500, 1500⟩, ⟨2000, 3000⟩] 2500) =
          some e ∧ (2500 : ℚ) < e.endTimeMs) ∧
      ∀ (j : Int) (e : TimelineElement), 0 ≤ j →
        j < findIndexFwd [⟨0, 1000⟩, ⟨500, 1500⟩, ⟨2000, 3000⟩] 2500 →
        getI [(⟨0, 1000⟩ : TimelineElement), ⟨500, 1500⟩, ⟨2000, 3000⟩] j =
          some e →
        e.endTimeMs ≤ 2500) ∧
    ((∀ (j : Int) (e : TimelineElement),
        getI [(⟨0, 1000⟩ : TimelineElement), ⟨500, 1500⟩, ⟨2000, 3000⟩] j =
          some e →
        (0 : ℚ) ≤ e.startTimeMs) ∧
      ∀ (t t' : Timeline) (ev : UpdateEvents),
        t.elements = [⟨0, 1000⟩, ⟨500, 1500⟩, ⟨2000, 3000⟩] →
        Timeline.update t 0 false = some (t', ev) →
        ev.builds = [] ∧ t'.nextElementIndex = some (-1)) :=
  ⟨(c8_cursor_resync [⟨0, 1000⟩, ⟨500, 1500⟩, ⟨2000, 3000⟩] 2500).2.2.1
      (by decide),
   (c8_cursor_resync [⟨0, 1000⟩, ⟨500, 1500⟩, ⟨2000, 3000⟩] 0).2.2.2.2.2
      (by decide)⟩
/-! Sortedness of the constructor's stable sort. -/

theorem mem_insertByStart {e x : TimelineElement} :
    ∀ {l : List TimelineElement},
    x ∈ insertByStart e l ↔ x = e ∨ x ∈ l := by
  intro l
  induction l with
  | nil => simp [insertByStart]
  | cons f fs ih =>
    unfold insertByStart
    split
    · simp only [List.mem_cons, ih]
      tauto
    · exact List.mem_cons

theorem insertByStart_pairwise {e : TimelineElement}
    {l : List TimelineElement}
    (h : l.Pairwise (fun a b => a.startTimeMs ≤ b.startTimeMs)) :
    (insertByStart e l).Pairwise
      (fun a b => a.startTimeMs ≤ b.startTimeMs) := by
  induction l with
  | nil => simp [insertByStart]
  | cons f fs ih =>
    rw [List.pairwise_cons] at h
    unfold insertByStart
    split
    · rename_i hf
      rw [List.pairwise_cons]
      refine ⟨?_, ih h.2⟩
      intro x hx
      rcases mem_insertByStart.mp hx with rfl | hx
      · exact le_of_lt hf
      · exact h.1 x hx
    · rename_i hf
      rw [List.pairwise_cons]
      refine ⟨?_, List.pairwise_cons.mpr h⟩
      intro x hx
      rcases List.mem_cons.mp hx with rfl | hx
      · exact le_of_not_lt hf
      · exact le_trans (le_of_not_lt hf) (h.1 x hx)

theorem sortByStart_pairwise (l : List TimelineElement) :
    (sortByStart l).Pairwise (fun a b => a.startTimeMs ≤ b.startTimeMs) := by
  induction l with
  | nil => simp [sortByStart]
  | cons e es ih => exact insertByStart_pairwise ih

/-! Reachable states and their invariant. -/

/-- Invariant of every timeline state reachable after at least one
`update` call, with `lastT` the time of that last call and `cursor` the
cursor it left behind. -/
structure TimelineInv (t : Timeline) (lastT : ℚ) (cursor : Int) : Prop where
  sorted : t.elements.Pairwise (fun a b => a.startTimeMs ≤ b.startTimeMs)
  lastEq : t.lastTimeMs = some lastT
  cursorEq : t.nextElementIndex = some cursor
  entries : ∀ (j : Int) (st : TimelineElementState),
    (j, st) ∈ t.activeElements →
    ∃ e, getI t.elements j = some e ∧
      st = ⟨e.startTimeMs, e.endTimeMs⟩ ∧
      e.startTimeMs ≤ lastT ∧ lastT < e.endTimeMs
  keysNodup : (t.activeElements.map Prod.fst).Nodup
  below : ∀ (j : Int) (e : TimelineElement), getI t.elements j = some e →
    j < cursor → e.startTimeMs < lastT ∨ e.endTimeMs ≤ lastT
  shield : ∀ (j : Int) (e : TimelineElement), getI t.elements j = some e →
    j < cursor → e.startTimeMs < lastT → lastT < e.endTimeMs →
    hasKey t.activeElements j = false →
    (getI t.elements cursor = none ∨
      ∃ ec, getI t.elements cursor = some ec ∧ ec.endTimeMs ≤ lastT)

/-- A state is well-formed when it is either freshly constructed or
satisfies the post-update invariant. -/
def StateOK (t : Timeline) : Prop :=
  (t.elements.Pairwise (fun a b => a.startTimeMs ≤ b.startTimeMs) ∧
    t.activeElements = [] ∧ t.lastTimeMs = none ∧
    t.nextElementIndex = none) ∨
  ∃ lastT cursor, TimelineInv t lastT cursor

/-- States reachable from a constructed timeline through `update`
calls. -/
inductive Reachable : Timeline → Prop
  | init (elements : List TimelineElement) (allowSkippingElements : Bool) :
      Reachable (mkTimeline elements allowSkippingElements)
  | step {t : Timeline} {timeMs : ℚ} {forward : Bool} {t' : Timeline}
      {ev : UpdateEvents} : Reachable t →
      Timeline.update t timeMs forward = some (t', ev) → Reachable t'

theorem hasKey_filter {m : List (Int × TimelineElementState)} {k : Int}
    {p : Int × TimelineElementState → Bool} :
    hasKey (m.filter p) k = true ↔ ∃ st, (k, st) ∈ m ∧ p (k, st) = true := by
  rw [hasKey_iff]
  constructor
  · intro ⟨st, hst⟩
    rw [List.mem_filter] at hst
    exact ⟨st, hst.1, hst.2⟩
  · intro ⟨st, hst, hp⟩
    exact ⟨st, List.mem_filter.mpr ⟨hst, hp⟩⟩

theorem filter_keys_nodup {m : List (Int × TimelineElementState)}
    {p : Int × TimelineElementState → Bool}
    (h : (m.map Prod.fst).Nodup) : ((m.filter p).map Prod.fst).Nodup :=
  List.Nodup.sublist (List.Sublist.map Prod.fst (List.filter_sublist m)) h
/-- Forward updates from a well-formed state never miss: every
descriptor whose window strictly contains the new time is in the active
set afterwards. -/
theorem fwd_no_miss {t : Timeline} (hok : StateOK t) {timeMs : ℚ}
    {t' : Timeline} {ev : UpdateEvents}
    (hupd : Timeline.update t timeMs true = some (t', ev)) :
    ∀ (j : Int) (e : TimelineElement), getI t.elements j = some e →
    e.startTimeMs < timeMs → timeMs < e.endTimeMs →
    hasKey t'.activeElements j = true := by
  obtain ⟨c, actMid, hscan, helems, -, hact, -, -, -, -⟩ := update_spec hupd
  rw [show (if true = true then (0 : Int)
      else (t.elements.length : Int) - 1) = 0 from rfl] at hscan
  have S := scanF_main t.elements t.allowSkippingElements timeMs _ _ _ _
    _ _ _ hscan (by simp) (by simp) (by simp)
  have hsorted : t.elements.Pairwise
      (fun a b => a.startTimeMs ≤ b.startTimeMs) := by
    rcases hok with ⟨hs, -, -, -⟩ | ⟨L, c0, I⟩
    · exact hs
    · exact I.sorted
  intro j e hg hs1 hs2
  have hj0 : 0 ≤ j := (getI_lt_length hg).1
  -- an entry for j in the mid-scan map always has the window of `e`
  have hmid : hasKey actMid j = true → hasKey t'.activeElements j = true := by
    intro hk
    obtain ⟨st, hst⟩ := hasKey_iff.mp hk
    have hval : st = ⟨e.startTimeMs, e.endTimeMs⟩ := by
      rcases S.values (j, st) hst with hold | ⟨e', hg', hv⟩
      · rcases hok with ⟨-, hemp, -, -⟩ | ⟨L, c0, I⟩
        · rw [hemp] at hold
          simp at hold
        · obtain ⟨e', hg', hv, -⟩ := I.entries j st hold
          rw [hg] at hg'
          cases hg'
          exact hv
      · rw [hg] at hg'
        cases hg'
        exact hv
    rw [hact]
    refine hasKey_filter.mpr ⟨st, hst, ?_⟩
    rw [hval]
    simp only [inWindow, Bool.and_eq_true, decide_eq_true_eq]
    exact ⟨le_of_lt hs1, hs2⟩
  by_cases hjge : Timeline.setInitialElementIndex t.elements t.lastTimeMs
      (t.nextElementIndex.getD 0) timeMs true ≤ j
  · -- the scan reaches `j` and leaves it active
    have hjc : j < c := by
      by_contra hcj
      push_neg at hcj
      rcases S.exits with hx | ⟨ec, hgc, hce⟩
      · have := (getI_lt_length hg).2
        omega
      · have := sorted_start_le hsorted hcj hgc hg
        exact absurd hs1 (not_lt.mpr (le_trans hce this))
    by_cases hkey : hasKey t.activeElements j = true
    · exact hmid ((S.keys j).mpr (Or.inl hkey))
    · refine hmid ((S.keys j).mpr (Or.inr ?_))
      rw [(S.buildMem j)]
      right
      exact ⟨hjge, hjc, e, hg, Or.inr ⟨hs2, Bool.eq_false_iff.mpr hkey⟩⟩
  · -- `j` lies before the scan start: impossible or already active
    push_neg at hjge
    rcases setInitialElementIndex_eq t.elements t.lastTimeMs
        (t.nextElementIndex.getD 0) timeMs true with
      ⟨heq, e1, hg1, hnsb, hnsf⟩ | heq
    · rw [heq] at hjge
      have hnsf' : ¬(e1.endTimeMs ≤ timeMs) := hnsf
      rcases hok with ⟨-, hemp, hlast, hcur⟩ | ⟨L, c0, I⟩
      · rw [hcur] at hjge
        simp only [Option.getD_none] at hjge
        omega
      · rw [I.cursorEq] at hjge hg1
        simp only [Option.getD_some] at hjge hg1
        have hLT : L ≤ timeMs := by
          have := hnsb L I.lastEq
          have h' : ¬(timeMs < L) := this
          exact le_of_not_lt h'
        have hbelow := I.below j e hg hjge
        have hsL : e.startTimeMs < L := by
          rcases hbelow with h' | h'
          · exact h'
          · exact absurd hs2 (not_lt.mpr (le_trans h' hLT))
        have hLe : L < e.endTimeMs := lt_of_le_of_lt hLT hs2
        by_cases hkey : hasKey t.activeElements j = true
        · exact hmid ((S.keys j).mpr (Or.inl hkey))
        · exfalso
          rcases I.shield j e hg hjge hsL hLe
              (Bool.eq_false_iff.mpr hkey) with hn | ⟨ec, hgc, hce⟩
          · rw [hg1] at hn
            exact absurd hn (by simp)
          · rw [hg1] at hgc
            cases hgc
            exact hnsf' (le_trans hce hLT)
    · rw [heq] at hjge
      have hjge' : j < max (findIndexFwd t.elements timeMs) 0 := hjge
      rcases findIndexFwd_range t.elements timeMs with ⟨h1, h2⟩ | h1
      · have hff : 0 ≤ findIndexFwd t.elements timeMs := by omega
        obtain ⟨-, hleast⟩ := findIndexFwd_found hff
        have := hleast j e hj0 (by omega) hg
        exact absurd hs2 (not_lt.mpr this)
      · rw [h1] at hjge'
        simp at hjge'
        omega
theorem getI_neg {l : List α} {i : Int} (h : i < 0) : getI l i = none := by
  unfold getI
  rw [if_neg (by omega)]

/-- One `update` call from any well-formed state re-establishes the
post-update invariant at the new time. -/
theorem update_StateOK {t : Timeline} (hok : StateOK t) {timeMs : ℚ}
    {forward : Bool} {t' : Timeline} {ev : UpdateEvents}
    (hupd : Timeline.update t timeMs forward = some (t', ev)) :
    ∃ cursor, TimelineInv t' timeMs cursor := by
  obtain ⟨c, actMid, hscan, helems, -, hact, hlast, hcur, -, -⟩ :=
    update_spec hupd
  have hsorted : t.elements.Pairwise
      (fun a b => a.startTimeMs ≤ b.startTimeMs) := by
    rcases hok with ⟨hs, -, -, -⟩ | ⟨L, c0, I⟩
    · exact hs
    · exact I.sorted
  have hnd0 : (t.activeElements.map Prod.fst).Nodup := by
    rcases hok with ⟨-, hemp, -, -⟩ | ⟨L, c0, I⟩
    · rw [hemp]
      simp
    · exact I.keysNodup
  have hndMid : (actMid.map Prod.fst).Nodup :=
    scan_keysNodup t.elements t.allowSkippingElements timeMs forward _ _ _ _
      _ _ _ hscan hnd0
  cases forward with
  | true =>
    rw [show (if true = true then (0 : Int)
        else (t.elements.length : Int) - 1) = 0 from rfl] at hscan
    have S := scanF_main t.elements t.allowSkippingElements timeMs _ _ _ _
      _ _ _ hscan (by simp) (by simp) (by simp)
    refine ⟨c, ?_, ?_, ?_, ?_, ?_, ?_, ?_⟩
    · rw [helems]
      exact hsorted
    · exact hlast
    · exact hcur
    · intro j st hmem
      rw [hact, List.mem_filter] at hmem
      obtain ⟨hmemMid, hwin⟩ := hmem
      have hval : ∃ e, getI t.elements j = some e ∧
          st = ⟨e.startTimeMs, e.endTimeMs⟩ := by
        rcases S.values (j, st) hmemMid with hold | ⟨e', hg', hv⟩
        · rcases hok with ⟨-, hemp, -, -⟩ | ⟨L, c0, I⟩
          · rw [hemp] at hold
            simp at hold
          · obtain ⟨e', hg', hv, -⟩ := I.entries j st hold
            exact ⟨e', hg', hv⟩
        · exact ⟨e', hg', hv⟩
      obtain ⟨e, hg, hv⟩ := hval
      refine ⟨e, by rw [helems]; exact hg, hv, ?_, ?_⟩
      · rw [hv] at hwin
        simp only [inWindow, Bool.and_eq_true, decide_eq_true_eq] at hwin
        exact hwin.1
      · rw [hv] at hwin
        simp only [inWindow, Bool.and_eq_true, decide_eq_true_eq] at hwin
        exact hwin.2
    · rw [hact]
      exact filter_keys_nodup hndMid
    · intro j e hg hjc
      rw [helems] at hg
      have hj0 : 0 ≤ j := (getI_lt_length hg).1
      by_cases hjge : Timeline.setInitialElementIndex t.elements
          t.lastTimeMs (t.nextElementIndex.getD 0) timeMs true ≤ j
      · obtain ⟨e', hg', hlt⟩ := S.pass j hjge hjc
        rw [hg] at hg'
        cases hg'
        exact Or.inl hlt
      · push_neg at hjge
        rcases setInitialElementIndex_eq t.elements t.lastTimeMs
            (t.nextElementIndex.getD 0) timeMs true with
          ⟨heq, e1, hg1, hnsb, hnsf⟩ | heq
        · rw [heq] at hjge
          rcases hok with ⟨-, -, -, hcur0⟩ | ⟨L, c0, I⟩
          · rw [hcur0] at hjge
            simp only [Option.getD_none] at hjge
            omega
          · rw [I.cursorEq] at hjge
            simp only [Option.getD_some] at hjge
            have hLT : L ≤ timeMs := by
              have h' : ¬(timeMs < L) := hnsb L I.lastEq
              exact le_of_not_lt h'
            rcases I.below j e hg hjge with h' | h'
            · exact Or.inl (lt_of_lt_of_le h' hLT)
            · exact Or.inr (le_trans h' hLT)
        · rw [heq] at hjge
          have hjge' : j < max (findIndexFwd t.elements timeMs) 0 := hjge
          rcases findIndexFwd_range t.elements timeMs with ⟨h1, h2⟩ | h1
          · have hff : 0 ≤ findIndexFwd t.elements timeMs := by omega
            obtain ⟨-, hleast⟩ := findIndexFwd_found hff
            exact Or.inr (hleast j e hj0 (by omega) hg)
          · rw [h1] at hjge'
            simp at hjge'
            omega
    · intro j e hg hjc hs1 hs2 hkey
      exfalso
      rw [helems] at hg
      have := fwd_no_miss hok hupd j e hg hs1 hs2
      rw [this] at hkey
      exact absurd hkey (by simp)
  | false =>
    rw [show (if false = true then (0 : Int)
        else (t.elements.length : Int) - 1) =
        (t.elements.length : Int) - 1 from rfl] at hscan
    have S := scanB_main t.elements t.allowSkippingElements timeMs _ _ _ _
      _ _ _ hscan (by simp) (by simp) (by simp)
    refine ⟨c, ?_, ?_, ?_, ?_, ?_, ?_, ?_⟩
    · rw [helems]
      exact hsorted
    · exact hlast
    · exact hcur
    · intro j st hmem
      rw [hact, List.mem_filter] at hmem
      obtain ⟨hmemMid, hwin⟩ := hmem
      have hval : ∃ e, getI t.elements j = some e ∧
          st = ⟨e.startTimeMs, e.endTimeMs⟩ := by
        rcases S.values (j, st) hmemMid with hold | ⟨e', hg', hv⟩
        · rcases hok with ⟨-, hemp, -, -⟩ | ⟨L, c0, I⟩
          · rw [hemp] at hold
            simp at hold
          · obtain ⟨e', hg', hv, -⟩ := I.entries j st hold
            exact ⟨e', hg', hv⟩
        · exact ⟨e', hg', hv⟩
      obtain ⟨e, hg, hv⟩ := hval
      refine ⟨e, by rw [helems]; exact hg, hv, ?_, ?_⟩
      · rw [hv] at hwin
        simp only [inWindow, Bool.and_eq_true, decide_eq_true_eq] at hwin
        exact hwin.1
      · rw [hv] at hwin
        simp only [inWindow, Bool.and_eq_true, decide_eq_true_eq] at hwin
        exact hwin.2
    · rw [hact]
      exact filter_keys_nodup hndMid
    · intro j e hg hjc
      rw [helems] at hg
      have hj0 : 0 ≤ j := (getI_lt_length hg).1
      have hcle := S.le
      rcases setInitialElementIndex_eq t.elements t.lastTimeMs
          (t.nextElementIndex.getD ((t.elements.length : Int) - 1)) timeMs
          false with ⟨heq, e1, hg1, hnsb, hnsf⟩ | heq
      · rw [heq] at hcle
        have hnsf' : ¬(timeMs ≤ e1.startTimeMs) := hnsf
        have hse := sorted_start_le hsorted
          (show j ≤ t.nextElementIndex.getD ((t.elements.length : Int) - 1)
            by omega) hg hg1
        exact Or.inl (lt_of_le_of_lt hse (lt_of_not_le hnsf'))
      · rw [heq] at hcle
        have hcle' : c ≤ findIndexBwd t.elements timeMs := hcle
        rcases findIndexBwd_range t.elements timeMs with ⟨h1, h2⟩
        by_cases hfb : 0 ≤ findIndexBwd t.elements timeMs
        · obtain ⟨⟨e1, hg1, hlt1⟩, -⟩ := findIndexBwd_found hfb
          have hse := sorted_start_le hsorted
            (show j ≤ findIndexBwd t.elements timeMs by omega) hg hg1
          exact Or.inl (lt_of_le_of_lt hse hlt1)
        · exfalso
          have := (getI_lt_length hg).1
          omega
    · intro j e hg hjc hs1 hs2 hkey
      rcases S.exits with hx | ⟨ec, hgc, hce⟩
      · left
        rw [helems]
        exact getI_neg hx
      · right
        exact ⟨ec, by rw [helems]; exact hgc, hce⟩
theorem reachable_StateOK {t : Timeline} (h : Reachable t) : StateOK t := by
  induction h with
  | init elements skip =>
    exact Or.inl ⟨sortByStart_pairwise elements, rfl, rfl, rfl⟩
  | step hr hupd ih =>
    rename_i t timeMs forward t' ev
    obtain ⟨cursor, hinv⟩ := update_StateOK ih hupd
    exact Or.inr ⟨timeMs, cursor, hinv⟩

/-- C3 counterexample.  First, the claim fails at a start boundary: with
descriptors `[0,1000) [500,1500) [2000,3000)` (skipping enabled), the
very first call `update(0)` leaves the active set empty although the
first descriptor's window contains `0` and has not elapsed (so it is not
skip-bypassed) — activation demands strictly `time > startTime`.
Second, a backward update can miss an in-window descriptor entirely:
over `[0,10000) [100,120]`, the first call `update(150, backward)` stops
at the short second descriptor (`150 >= 120`) before ever reaching the
first, whose window strictly contains `150`, and the active set stays
empty. -/
theorem c3_counterexample :
    (Timeline.update
        (mkTimeline [⟨0, 1000⟩, ⟨500, 1500⟩, ⟨2000, 3000⟩] true) 0 true =
      some (⟨[⟨0, 1000⟩, ⟨500, 1500⟩, ⟨2000, 3000⟩], true, [],
        some 0, some 0⟩, ⟨[], [], []⟩)) ∧
    (Timeline.update (mkTimeline [⟨0, 10000⟩, ⟨100, 120⟩] true) 150 false =
      some (⟨[⟨0, 10000⟩, ⟨100, 120⟩], true, [], some 150, some 1⟩,
        ⟨[], [], []⟩)) := by
  constructor
  · decide
  · decide

/-- C3 (amended): after any single *forward* `update(T)` from a
reachable state, the active set equals exactly the set of descriptors
whose window strictly contains `T` together with the already-active
descriptors whose half-open window still contains `T`.  (At `T =
startTime` a not-yet-active descriptor is *not* activated, and backward
updates can additionally miss in-window descriptors, per the
counterexample.) -/
theorem c3_active_set {t : Timeline} (ht : Reachable t) (timeMs : ℚ)
    {t' : Timeline} {ev : UpdateEvents}
    (hupd : Timeline.update t timeMs true = some (t', ev)) (j : Int) :
    hasKey t'.activeElements j = true ↔
      ((∃ e, getI t.elements j = some e ∧
          e.startTimeMs < timeMs ∧ timeMs < e.endTimeMs) ∨
       (hasKey t.activeElements j = true ∧
        ∃ e, getI t.elements j = some e ∧
          e.startTimeMs ≤ timeMs ∧ timeMs < e.endTimeMs)) := by
  have hok := reachable_StateOK ht
  obtain ⟨c, actMid, hscan, helems, -, hact, -, -, -, -⟩ := update_spec hupd
  rw [show (if true = true then (0 : Int)
      else (t.elements.length : Int) - 1) = 0 from rfl] at hscan
  have S := scanF_main t.elements t.allowSkippingElements timeMs _ _ _ _
    _ _ _ hscan (by simp) (by simp) (by simp)
  constructor
  · intro hk
    rw [hact] at hk
    obtain ⟨st, hmem, hwin⟩ := hasKey_filter.mp hk
    simp only [inWindow, Bool.and_eq_true, decide_eq_true_eq] at hwin
    rcases S.values (j, st) hmem with hold | ⟨e, hg, hv⟩
    · -- entry existed before the call
      rcases hok with ⟨-, hemp, -, -⟩ | ⟨L, c0, I⟩
      · rw [hemp] at hold
        simp at hold
      · obtain ⟨e, hg, hv, -⟩ := I.entries j st hold
        right
        refine ⟨hasKey_of_mem hold, e, hg, ?_, ?_⟩
        · rw [hv] at hwin
          exact hwin.1
        · rw [hv] at hwin
          exact hwin.2
    · have hgj : getI t.elements j = some e := hg
      have hv' : st = ⟨e.startTimeMs, e.endTimeMs⟩ := hv
      by_cases hkey : hasKey t.activeElements j = true
      · right
        refine ⟨hkey, e, hgj, ?_, ?_⟩
        · rw [hv'] at hwin
          exact hwin.1
        · rw [hv'] at hwin
          exact hwin.2
      · left
        have hkMid : hasKey actMid j = true := hasKey_of_mem hmem
        have hblds : j ∈ ev.builds := by
          rcases (S.keys j).mp hkMid with h' | h'
          · exact absurd h' hkey
          · exact h'
        rcases (S.buildMem j).mp hblds with h' | ⟨h1, h2, e', hg', -⟩
        · simp at h'
        · obtain ⟨e'', hg'', hlt⟩ := S.pass j h1 h2
          rw [hg'] at hg''
          cases hg''
          rw [hgj] at hg'
          cases hg'
          refine ⟨e, hgj, hlt, ?_⟩
          rw [hv'] at hwin
          exact hwin.2
  · intro hk
    rcases hk with ⟨e, hg, h1, h2⟩ | ⟨hkey, e, hg, h1, h2⟩
    · exact fwd_no_miss hok hupd j e hg h1 h2
    · have hkMid : hasKey actMid j = true := (S.keys j).mpr (Or.inl hkey)
      obtain ⟨st, hmem⟩ := hasKey_iff.mp hkMid
      have hval : st = ⟨e.startTimeMs, e.endTimeMs⟩ := by
        rcases S.values (j, st) hmem with hold | ⟨e', hg', hv⟩
        · rcases hok with ⟨-, hemp, -, -⟩ | ⟨L, c0, I⟩
          · rw [hemp] at hold
            simp at hold
          · obtain ⟨e', hg', hv, -⟩ := I.entries j st hold
            rw [hg] at hg'
            cases hg'
            exact hv
        · rw [hg] at hg'
          cases hg'
          exact hv
      rw [hact]
      refine hasKey_filter.mpr ⟨st, hmem, ?_⟩
      rw [hval]
      simp only [inWindow, Bool.and_eq_true, decide_eq_true_eq]
      exact ⟨h1, h2⟩

/-- C3 witness: over `[0,1000) [500,1500) [2000,3000)` with skipping,
`update(600)` from the fresh timeline yields an active set whose
membership matches the amended characterization; instantiated at index
`1` (window `[500,1500)` strictly contains `600`). -/
theorem c3_active_set_witness :
    hasKey (⟨[⟨0, 1000⟩, ⟨500, 1500⟩, ⟨2000, 3000⟩], true,
        [(0, ⟨0, 1000⟩), (1, ⟨500, 1500⟩)], some 600, some 2⟩ :
      Timeline).activeElements 1 = true ↔
      ((∃ e, getI (mkTimeline
          [⟨0, 1000⟩, ⟨500, 1500⟩, ⟨2000, 3000⟩] true).elements 1 =
            some e ∧ e.startTimeMs < 600 ∧ (600 : ℚ) < e.endTimeMs) ∨
       (hasKey (mkTimeline
          [⟨0, 1000⟩, ⟨500, 1500⟩, ⟨2000, 3000⟩] true).activeElements 1 =
            true ∧
        ∃ e, getI (mkTimeline
          [⟨0, 1000⟩, ⟨500, 1500⟩, ⟨2000, 3000⟩] true).elements 1 =
            some e ∧ e.startTimeMs ≤ 600 ∧ (600 : ℚ) < e.endTimeMs)) :=
  @c3_active_set (mkTimeline [⟨0, 1000⟩, ⟨500, 1500⟩, ⟨2000, 3000⟩] true)
    (Reachable.init [⟨0, 1000⟩, ⟨500, 1500⟩, ⟨2000, 3000⟩] true) 600
    ⟨[⟨0, 1000⟩, ⟨500, 1500⟩, ⟨2000, 3000⟩], true,
      [(0, ⟨0, 1000⟩), (1, ⟨500, 1500⟩)], some 600, some 2⟩
    ⟨[0, 1], [0, 1], []⟩ (by decide) 1
/-- C6 counterexample: over `[5,5] [6,100)` with skipping disabled, the
step from `update(0)` to `update(10)` crosses the zero-duration boundary
at `5`, yet the zero-duration descriptor (index `0`) is never activated:
the cursor resynchronization (`10 >= 5` makes the cursor element stale)
binary-searches to the first not-yet-elapsed window, index `1`, and the
scan starts past the zero-duration descriptor.  It receives zero
activate+deactivate pairs for this crossing, not exactly one. -/
theorem c6_counterexample :
    Timeline.run (mkTimeline [⟨5, 5⟩, ⟨6, 100⟩] false) [0, 10] =
      some (⟨[⟨5, 5⟩, ⟨6, 100⟩], false,
          [(1, ⟨6, 100⟩)], some 10, some 2⟩,
        [⟨[], [], []⟩, ⟨[1], [1], []⟩]) := by
  decide

/-- C6 (amended): a zero-duration descriptor is never ticked and never
retained in the active set; within one update call it is built at most
once, and whenever it is built it is destroyed in that same call; and
when the forward scan actually reaches it (skipping disabled, scan start
at or before it, time strictly past its boundary) it is indeed
activated.  What fails in the original claim is only that a cursor
resynchronization may jump past the boundary without the scan ever
reaching the descriptor (see the counterexample). -/
theorem c6_zero_duration {t : Timeline} (ht : Reachable t) {j : Int}
    {e : TimelineElement} (hj : getI t.elements j = some e)
    (hzero : e.startTimeMs = e.endTimeMs) (timeMs : ℚ) (forward : Bool)
    {t' : Timeline} {ev : UpdateEvents}
    (hupd : Timeline.update t timeMs forward = some (t', ev)) :
    j ∉ ev.updated ∧
    hasKey t'.activeElements j = false ∧
    ev.builds.count j ≤ 1 ∧
    (j ∈ ev.builds → j ∈ ev.destroyed) ∧
    (forward = true → t.allowSkippingElements = false →
      Timeline.setInitialElementIndex t.elements t.lastTimeMs
        (t.nextElementIndex.getD 0) timeMs true ≤ j →
      e.startTimeMs < timeMs → j ∈ ev.builds) := by
  have hok := reachable_StateOK ht
  obtain ⟨c, actMid, hscan, helems, -, hact, -, -, hupdated, hdestroyed⟩ :=
    update_spec hupd
  have hsorted : t.elements.Pairwise
      (fun a b => a.startTimeMs ≤ b.startTimeMs) := by
    rcases hok with ⟨hs, -, -, -⟩ | ⟨L, c0, I⟩
    · exact hs
    · exact I.sorted
  -- any mid-scan entry keyed `j` carries the zero-duration window
  have hmidval : ∀ st : TimelineElementState, (j, st) ∈ actMid →
      st = ⟨e.startTimeMs, e.endTimeMs⟩ := by
    intro st hmem
    have hvalues : (j, st) ∈ t.activeElements ∨
        ∃ e', getI t.elements (j, st).1 = some e' ∧
          (j, st).2 = ⟨e'.startTimeMs, e'.endTimeMs⟩ := by
      cases forward with
      | true =>
        rw [show (if true = true then (0 : Int)
            else (t.elements.length : Int) - 1) = 0 from rfl] at hscan
        have S := scanF_main t.elements t.allowSkippingElements timeMs _ _
          _ _ _ _ _ hscan (by simp) (by simp) (by simp)
        exact S.values (j, st) hmem
      | false =>
        rw [show (if false = true then (0 : Int)
            else (t.elements.length : Int) - 1) =
            (t.elements.length : Int) - 1 from rfl] at hscan
        have S := scanB_main t.elements t.allowSkippingElements timeMs _ _
          _ _ _ _ _ hscan (by simp) (by simp) (by simp)
        exact S.values (j, st) hmem
    rcases hvalues with hold | ⟨e', hg', hv⟩
    · rcases hok with ⟨-, hemp, -, -⟩ | ⟨L, c0, I⟩
      · rw [hemp] at hold
        simp at hold
      · obtain ⟨e', hg', hv, -⟩ := I.entries j st hold
        rw [hj] at hg'
        cases hg'
        exact hv
    · have hgj : getI t.elements j = some e' := hg'
      rw [hj] at hgj
      cases hgj
      exact hv
  have hnowin : ∀ st : TimelineElementState, (j, st) ∈ actMid →
      inWindow timeMs st = false := by
    intro st hmem
    rw [hmidval st hmem]
    simp only [inWindow, Bool.and_eq_false_iff]
    by_cases hle : e.startTimeMs ≤ timeMs
    · right
      rw [decide_eq_false_iff_not]
      rw [← hzero]
      exact not_lt.mpr hle
    · left
      exact decide_eq_false hle
  refine ⟨?_, ?_, ?_, ?_, ?_⟩
  · intro hmem
    rw [hupdated] at hmem
    rw [List.mem_map] at hmem
    obtain ⟨⟨pk, pv⟩, hp, hpe⟩ := hmem
    simp only at hpe
    subst hpe
    rw [List.mem_filter] at hp
    have := hnowin pv hp.1
    rw [this] at hp
    exact absurd hp.2 (by simp)
  · rw [hact]
    rw [Bool.eq_false_iff]
    intro hk
    obtain ⟨st, hmem, hwin⟩ := hasKey_filter.mp hk
    have := hnowin st hmem
    rw [this] at hwin
    exact absurd hwin (by simp)
  · cases forward with
    | true =>
      rw [show (if true = true then (0 : Int)
          else (t.elements.length : Int) - 1) = 0 from rfl] at hscan
      have S := scanF_main t.elements t.allowSkippingElements timeMs _ _
        _ _ _ _ _ hscan (by simp) (by simp) (by simp)
      exact List.nodup_iff_count_le_one.mp
        (S.buildSorted.imp (fun h => ne_of_lt h)) j
    | false =>
      rw [show (if false = true then (0 : Int)
          else (t.elements.length : Int) - 1) =
          (t.elements.length : Int) - 1 from rfl] at hscan
      have S := scanB_main t.elements t.allowSkippingElements timeMs _ _
        _ _ _ _ _ hscan (by simp) (by simp) (by simp)
      exact List.nodup_iff_count_le_one.mp
        (S.buildSorted.imp (fun h => ne_of_gt h)) j
    -- keys of the mid-scan map include every built index
  · intro hb
    have hkMid : hasKey actMid j = true := by
      cases forward with
      | true =>
        rw [show (if true = true then (0 : Int)
            else (t.elements.length : Int) - 1) = 0 from rfl] at hscan
        have S := scanF_main t.elements t.allowSkippingElements timeMs _ _
          _ _ _ _ _ hscan (by simp) (by simp) (by simp)
        exact (S.keys j).mpr (Or.inr hb)
      | false =>
        rw [show (if false = true then (0 : Int)
            else (t.elements.length : Int) - 1) =
            (t.elements.length : Int) - 1 from rfl] at hscan
        have S := scanB_main t.elements t.allowSkippingElements timeMs _ _
          _ _ _ _ _ hscan (by simp) (by simp) (by simp)
        exact (S.keys j).mpr (Or.inr hb)
    obtain ⟨st, hmem⟩ := hasKey_iff.mp hkMid
    rw [hdestroyed]
    rw [List.mem_map]
    refine ⟨(j, st), ?_, rfl⟩
    rw [List.mem_filter]
    refine ⟨hmem, ?_⟩
    rw [hnowin st hmem]
    rfl
  · intro hfwd hskip hle hcross
    subst hfwd
    rw [show (if true = true then (0 : Int)
        else (t.elements.length : Int) - 1) = 0 from rfl] at hscan
    have S := scanF_main t.elements t.allowSkippingElements timeMs _ _
      _ _ _ _ _ hscan (by simp) (by simp) (by simp)
    have hjc : j < c := by
      by_contra hcj
      push_neg at hcj
      rcases S.exits with hx | ⟨ec, hgc, hce⟩
      · have := (getI_lt_length hj).2
        omega
      · have := sorted_start_le hsorted hcj hgc hj
        exact absurd hcross (not_lt.mpr (le_trans hce this))
    rw [S.buildMem j]
    exact Or.inr ⟨hle, hjc, e, hj, Or.inl hskip⟩

/-- C6 witness: over `[0,100) [5,5]` with skipping disabled, the first
call `update(10)` reaches and activates the zero-duration descriptor at
index `1`, destroys it in the same pass, never ticks it and does not
retain it. -/
theorem c6_zero_duration_witness :
    (1 : Int) ∉ (⟨[0, 1], [0], [1]⟩ : UpdateEvents).updated ∧
    hasKey (⟨[⟨0, 100⟩, ⟨5, 5⟩], false, [(0, ⟨0, 100⟩)], some 10, some 2⟩ :
      Timeline).activeElements 1 = false ∧
    (⟨[0, 1], [0], [1]⟩ : UpdateEvents).builds.count 1 ≤ 1 ∧
    ((1 : Int) ∈ (⟨[0, 1], [0], [1]⟩ : UpdateEvents).builds →
      (1 : Int) ∈ (⟨[0, 1], [0], [1]⟩ : UpdateEvents).destroyed) ∧
    (true = true →
      (mkTimeline [⟨0, 100⟩, ⟨5, 5⟩] false).allowSkippingElements = false →
      Timeline.setInitialElementIndex
        (mkTimeline [⟨0, 100⟩, ⟨5, 5⟩] false).elements
        (mkTimeline [⟨0, 100⟩, ⟨5, 5⟩] false).lastTimeMs
        ((mkTimeline [⟨0, 100⟩, ⟨5, 5⟩] false).nextElementIndex.getD 0)
        10 true ≤ 1 →
      (⟨5, 5⟩ : TimelineElement).startTimeMs < 10 →
      (1 : Int) ∈ (⟨[0, 1], [0], [1]⟩ : UpdateEvents).builds) :=
  @c6_zero_duration (mkTimeline [⟨0, 100⟩, ⟨5, 5⟩] false)
    (Reachable.init [⟨0, 100⟩, ⟨5, 5⟩] false) 1 ⟨5, 5⟩ (by decide) rfl 10
    true ⟨[⟨0, 100⟩, ⟨5, 5⟩], false, [(0, ⟨0, 100⟩)], some 10, some 2⟩
    ⟨[0, 1], [0], [1]⟩ (by decide)
/-- C7 counterexample: constructing a timeline from a collection
containing a malformed descriptor (`endTime < startTime`, here `[5,1]`)
does not fail and reports nothing: the constructor only copies and
sorts, and the resulting state holds the malformed descriptor
unchanged. -/
theorem c7_counterexample :
    mkTimeline [⟨5, 1⟩] false =
      ⟨[⟨5, 1⟩], false, [], none, none⟩ := by
  decide

/-- C7 (amended): construction performs no bounds validation — it
accepts malformed descriptors (see the counterexample) — and a
malformed descriptor (`endTime < startTime`) is then silently tolerated
at update time: in every reachable state it is absent from the active
set, and no update call ever ticks it or leaves it active. -/
theorem c7_no_validation {t : Timeline} (ht : Reachable t) {j : Int}
    {e : TimelineElement} (hj : getI t.elements j = some e)
    (hmal : e.endTimeMs < e.startTimeMs) :
    hasKey t.activeElements j = false ∧
    ∀ (timeMs : ℚ) (forward : Bool) (t' : Timeline) (ev : UpdateEvents),
      Timeline.update t timeMs forward = some (t', ev) →
      j ∉ ev.updated ∧ hasKey t'.activeElements j = false := by
  have hok := reachable_StateOK ht
  constructor
  · rw [Bool.eq_false_iff]
    intro hk
    obtain ⟨st, hmem⟩ := hasKey_iff.mp hk
    rcases hok with ⟨-, hemp, -, -⟩ | ⟨L, c0, I⟩
    · rw [hemp] at hmem
      simp at hmem
    · obtain ⟨e', hg', -, hb1, hb2⟩ := I.entries j st hmem
      rw [hj] at hg'
      cases hg'
      exact absurd hmal (not_lt.mpr (le_trans hb1 (le_of_lt hb2)))
  · intro timeMs forward t' ev hupd
    obtain ⟨c, actMid, hscan, -, -, hact, -, -, hupdated, -⟩ :=
      update_spec hupd
    have hmidval : ∀ st : TimelineElementState, (j, st) ∈ actMid →
        st = ⟨e.startTimeMs, e.endTimeMs⟩ := by
      intro st hmem
      have hvalues : (j, st) ∈ t.activeElements ∨
          ∃ e', getI t.elements (j, st).1 = some e' ∧
            (j, st).2 = ⟨e'.startTimeMs, e'.endTimeMs⟩ := by
        cases forward with
        | true =>
          rw [show (if true = true then (0 : Int)
              else (t.elements.length : Int) - 1) = 0 from rfl] at hscan
          have S := scanF_main t.elements t.allowSkippingElements timeMs _
            _ _ _ _ _ _ hscan (by simp) (by simp) (by simp)
          exact S.values (j, st) hmem
        | false =>
          rw [show (if false = true then (0 : Int)
              else (t.elements.length : Int) - 1) =
              (t.elements.length : Int) - 1 from rfl] at hscan
          have S := scanB_main t.elements t.allowSkippingElements timeMs _
            _ _ _ _ _ _ hscan (by simp) (by simp) (by simp)
          exact S.values (j, st) hmem
      rcases hvalues with hold | ⟨e', hg', hv⟩
      · rcases hok with ⟨-, hemp, -, -⟩ | ⟨L, c0, I⟩
        · rw [hemp] at hold
          simp at hold
        · obtain ⟨e', hg', hv, hb1, hb2⟩ := I.entries j st hold
          rw [hj] at hg'
          cases hg'
          exact absurd hmal (not_lt.mpr (le_trans hb1 (le_of_lt hb2)))
      · have hgj : getI t.elements j = some e' := hg'
        rw [hj] at hgj
        cases hgj
        exact hv
    have hnowin : ∀ st : TimelineElementState, (j, st) ∈ actMid →
        inWindow timeMs st = false := by
      intro st hmem
      rw [hmidval st hmem]
      simp only [inWindow, Bool.and_eq_false_iff]
      by_cases hle : e.startTimeMs ≤ timeMs
      · right
        rw [decide_eq_false_iff_not]
        intro hlt
        exact absurd hmal (not_lt.mpr (le_of_lt (lt_of_le_of_lt hle hlt)))
      · left
        exact decide_eq_false hle
    constructor
    · intro hmem
      rw [hupdated] at hmem
      rw [List.mem_map] at hmem
      obtain ⟨⟨pk, pv⟩, hp, hpe⟩ := hmem
      simp only at hpe
      subst hpe
      rw [List.mem_filter] at hp
      have := hnowin pv hp.1
      rw [this] at hp
      exact absurd hp.2 (by simp)
    · rw [hact]
      rw [Bool.eq_false_iff]
      intro hk
      obtain ⟨st, hmem, hwin⟩ := hasKey_filter.mp hk
      have := hnowin st hmem
      rw [this] at hwin
      exact absurd hwin (by simp)

/-- C7 witness: the tolerated malformed descriptor `[5,1]` from the
counterexample is never active in the fresh state and an `update(3)`
(a time inside the inverted bounds) neither ticks nor retains it. -/
theorem c7_no_validation_witness :
    hasKey (mkTimeline [⟨5, 1⟩] false).activeElements 0 = false ∧
    ∀ (timeMs : ℚ) (forward : Bool) (t' : Timeline) (ev : UpdateEvents),
      Timeline.update (mkTimeline [⟨5, 1⟩] false) timeMs forward =
        some (t', ev) →
      (0 : Int) ∉ ev.updated ∧ hasKey t'.activeElements 0 = false :=
  @c7_no_validation (mkTimeline [⟨5, 1⟩] false)
    (Reachable.init [⟨5, 1⟩] false) 0 ⟨5, 1⟩ (by decide) (by norm_num)
/-- Invariant maintained along a monotone forward playback of a
skip-enabled timeline: `L` is the last clock value seen (`none` before
the first call).  Entries strictly contain `L`, every descriptor whose
window strictly contains `L` is active, and the cursor sits at the scan
exit of the previous call. -/
structure RunInv (es : List TimelineElement) (t : Timeline)
    (L : Option ℚ) : Prop where
  elems : t.elements = es
  skip : t.allowSkippingElements = true
  lastEq : t.lastTimeMs = L
  cursor : (L = none ∧ t.activeElements = [] ∧ t.nextElementIndex = none) ∨
    (∃ (l : ℚ) (c : Int), L = some l ∧ t.nextElementIndex = some c ∧
      ((es.length : Int) ≤ c ∨
        ∃ ec, getI es c = some ec ∧ l ≤ ec.startTimeMs) ∧
      ∀ (j : Int) (e : TimelineElement), getI es j = some e → j < c →
        e.startTimeMs < l ∨ e.endTimeMs ≤ l)
  entries : ∀ (j : Int) (st : TimelineElementState),
    (j, st) ∈ t.activeElements →
    ∃ e, getI es j = some e ∧ st = ⟨e.startTimeMs, e.endTimeMs⟩ ∧
      ∀ l : ℚ, L = some l → e.startTimeMs < l ∧ l < e.endTimeMs
  strict : ∀ (j : Int) (e : TimelineElement) (l : ℚ), getI es j = some e →
    L = some l → e.startTimeMs < l → l < e.endTimeMs →
    hasKey t.activeElements j = true
  keysNodup : (t.activeElements.map Prod.fst).Nodup

/-- The freshly constructed skip-enabled timeline satisfies the run
invariant with no last time. -/
theorem runInv_init (elements : List TimelineElement) :
    RunInv (sortByStart elements) (mkTimeline elements true) none := by
  refine ⟨rfl, rfl, rfl, Or.inl ⟨rfl, rfl, rfl⟩, ?_, ?_, by simp [mkTimeline]⟩
  · intro j st hmem
    simp [mkTimeline] at hmem
  · intro j e l hg hl
    exact absurd hl (by simp [mkTimeline])

/-- One forward update along a monotone playback: exact characterization
of the call's builds, destroys and resulting active set, plus
re-establishment of the run invariant at the new time. -/
theorem run_step {es : List TimelineElement}
    (hsorted : es.Pairwise (fun a b => a.startTimeMs ≤ b.startTimeMs))
    {t : Timeline} {L : Option ℚ} (inv : RunInv es t L) {timeMs : ℚ}
    (hLT : ∀ l : ℚ, L = some l → l ≤ timeMs)
    {t' : Timeline} {ev : UpdateEvents}
    (hupd : Timeline.update t timeMs true = some (t', ev)) :
    (∀ (j : Int) (e : TimelineElement), getI es j = some e →
      (j ∈ ev.builds ↔ ((∀ l : ℚ, L = some l → l ≤ e.startTimeMs) ∧
        e.startTimeMs < timeMs ∧ timeMs < e.endTimeMs)) ∧
      (j ∈ ev.destroyed ↔
        (hasKey t.activeElements j = true ∧ e.endTimeMs ≤ timeMs)) ∧
      (hasKey t'.activeElements j = true ↔
        ((hasKey t.activeElements j = true ∧ timeMs < e.endTimeMs) ∨
          j ∈ ev.builds))) ∧
    ev.builds.Nodup ∧ ev.destroyed.Nodup ∧
    RunInv es t' (some timeMs) := by
  have hes : t.elements = es := inv.elems
  subst hes
  obtain ⟨c, actMid, hscan, helems, hskip', hact, hlast, hcur, -, hdest⟩ :=
    update_spec hupd
  rw [show (if true = true then (0 : Int)
      else (t.elements.length : Int) - 1) = 0 from rfl] at hscan
  have S := scanF_main t.elements t.allowSkippingElements timeMs _ _ _ _
    _ _ _ hscan (by simp) (by simp) (by simp)
  have hndMid : (actMid.map Prod.fst).Nodup :=
    scan_keysNodup t.elements t.allowSkippingElements timeMs true _ _ _ _
      _ _ _ hscan inv.keysNodup
  -- every mid-scan entry carries the window of its own descriptor
  have hmidval : ∀ (j : Int) (st : TimelineElementState), (j, st) ∈ actMid →
      ∃ e, getI t.elements j = some e ∧ st = ⟨e.startTimeMs, e.endTimeMs⟩ := by
    intro j st hmem
    rcases S.values (j, st) hmem with hold | ⟨e', hg', hv⟩
    · obtain ⟨e', hg', hv, -⟩ := inv.entries j st hold
      exact ⟨e', hg', hv⟩
    · exact ⟨e', hg', hv⟩
  -- scan start bound: every descriptor with time < endTime is at or
  -- after the (possibly resynced) start cursor
  have hstart_le : ∀ (j : Int) (e : TimelineElement), getI t.elements j = some e →
      (∀ l : ℚ, L = some l → l ≤ e.startTimeMs) →
      e.startTimeMs < timeMs → timeMs < e.endTimeMs →
      Timeline.setInitialElementIndex t.elements t.lastTimeMs
        (t.nextElementIndex.getD 0) timeMs true ≤ j := by
    intro j e hg hstartL hs1 hs2
    have hj0 : 0 ≤ j := (getI_lt_length hg).1
    rcases setInitialElementIndex_eq t.elements t.lastTimeMs
        (t.nextElementIndex.getD 0) timeMs true with
      ⟨heq, e1, hg1, hnsb, hnsf⟩ | heq
    · rw [heq]
      rcases inv.cursor with ⟨hLnone, -, hcur0⟩ | ⟨l, c0, hLsome, hcur0, -, hbelow⟩
      · rw [hcur0]
        simp only [Option.getD_none]
        omega
      · rw [hcur0]
        simp only [Option.getD_some]
        by_contra hjlt
        push_neg at hjlt
        rcases hbelow j e hg hjlt with h' | h'
        · exact absurd h' (not_lt.mpr (hstartL l hLsome))
        · exact absurd hs2 (not_lt.mpr (le_trans h' (hLT l hLsome)))
    · rw [heq]
      have hmax : max (findIndexFwd t.elements timeMs) 0 ≤ j := by
        rcases findIndexFwd_range t.elements timeMs with ⟨h1, h2⟩ | h1
        · by_cases hff : 0 ≤ findIndexFwd t.elements timeMs
          · obtain ⟨-, hleast⟩ := findIndexFwd_found hff
            by_contra hjlt
            push_neg at hjlt
            rw [inv.elems] at hleast
            have := hleast j e hj0 (by omega) hg
            exact absurd hs2 (not_lt.mpr this)
          · omega
        · rw [h1]
          simpa using hj0
      exact hmax
  -- every in-window descriptor ends up before the final cursor
  have hlt_c : ∀ (j : Int) (e : TimelineElement), getI t.elements j = some e →
      e.startTimeMs < timeMs → j < c := by
    intro j e hg hs1
    by_contra hcj
    push_neg at hcj
    rcases S.exits with hx | ⟨ec, hgc, hce⟩
    · have := (getI_lt_length hg).2
      omega
    · have := sorted_start_le hsorted hcj hgc hg
      exact absurd hs1 (not_lt.mpr (le_trans hce this))
  -- build characterization
  have hbuild : ∀ (j : Int) (e : TimelineElement), getI t.elements j = some e →
      (j ∈ ev.builds ↔ ((∀ l : ℚ, L = some l → l ≤ e.startTimeMs) ∧
        e.startTimeMs < timeMs ∧ timeMs < e.endTimeMs)) := by
    intro j e hg
    constructor
    · intro hmem
      rcases (S.buildMem j).mp hmem with h' | ⟨h1, h2, e', hg', hcond⟩
      · simp at h'
      · rw [hg] at hg'
        cases hg'
        obtain ⟨e'', hg'', hpass⟩ := S.pass j h1 h2
        rw [hg] at hg''
        cases hg''
        have hcond' : timeMs < e.endTimeMs ∧
            hasKey t.activeElements j = false := by
          rcases hcond with hsk | h'
          · rw [inv.skip] at hsk
            exact absurd hsk (by simp)
          · exact h'
        refine ⟨?_, hpass, hcond'.1⟩
        intro l hLl
        by_contra hls
        push_neg at hls
        have hlend : l < e.endTimeMs :=
          lt_of_le_of_lt (hLT l hLl) hcond'.1
        have := inv.strict j e l hg hLl hls hlend
        rw [this] at hcond'
        exact absurd hcond'.2 (by simp)
    · intro ⟨hstartL, hs1, hs2⟩
      have hnk : hasKey t.activeElements j = false := by
        rw [Bool.eq_false_iff]
        intro hk
        obtain ⟨st, hmem⟩ := hasKey_iff.mp hk
        obtain ⟨e', hg', -, hbounds⟩ := inv.entries j st hmem
        rw [hg] at hg'
        cases hg'
        rcases inv.cursor with ⟨hLnone, hemp, -⟩ | ⟨l, c0, hLsome, -, -, -⟩
        · rw [hemp] at hmem
          simp at hmem
        · obtain ⟨hb1, -⟩ := hbounds l hLsome
          exact absurd hb1 (not_lt.mpr (hstartL l hLsome))
      rw [S.buildMem j]
      right
      exact ⟨hstart_le j e hg hstartL hs1 hs2, hlt_c j e hg hs1, e, hg,
        Or.inr ⟨hs2, hnk⟩⟩
  -- key/window equivalences on the mid map
  have hkeymid : ∀ (j : Int), hasKey actMid j = true ↔
      (hasKey t.activeElements j = true ∨ j ∈ ev.builds) := S.keys
  have hpostkey : ∀ (j : Int) (e : TimelineElement), getI t.elements j = some e →
      (hasKey t'.activeElements j = true ↔
        ((hasKey t.activeElements j = true ∧ timeMs < e.endTimeMs) ∨
          j ∈ ev.builds)) := by
    intro j e hg
    rw [hact]
    constructor
    · intro hk
      obtain ⟨st, hmem, hwin⟩ := hasKey_filter.mp hk
      obtain ⟨e', hg', hv⟩ := hmidval j st hmem
      rw [hg] at hg'
      cases hg'
      rw [hv] at hwin
      simp only [inWindow, Bool.and_eq_true, decide_eq_true_eq] at hwin
      rcases (hkeymid j).mp (hasKey_of_mem hmem) with h' | h'
      · exact Or.inl ⟨h', hwin.2⟩
      · exact Or.inr h'
    · intro hk
      have hkm : hasKey actMid j = true := by
        rcases hk with ⟨h', -⟩ | h'
        · exact (hkeymid j).mpr (Or.inl h')
        · exact (hkeymid j).mpr (Or.inr h')
      obtain ⟨st, hmem⟩ := hasKey_iff.mp hkm
      obtain ⟨e', hg', hv⟩ := hmidval j st hmem
      rw [hg] at hg'
      cases hg'
      refine hasKey_filter.mpr ⟨st, hmem, ?_⟩
      rw [hv]
      simp only [inWindow, Bool.and_eq_true, decide_eq_true_eq]
      rcases hk with ⟨hka, hke⟩ | hkb
      · obtain ⟨sta, hmema⟩ := hasKey_iff.mp hka
        obtain ⟨e', hg', -, hbounds⟩ := inv.entries j sta hmema
        rw [hg] at hg'
        cases hg'
        rcases inv.cursor with ⟨-, hemp, -⟩ | ⟨l, c0, hLsome, -, -, -⟩
        · rw [hemp] at hmema
          simp at hmema
        · obtain ⟨hb1, -⟩ := hbounds l hLsome
          exact ⟨le_trans (le_of_lt hb1) (hLT l hLsome), hke⟩
      · obtain ⟨-, hs1, hs2⟩ := (hbuild j e hg).mp hkb
        exact ⟨le_of_lt hs1, hs2⟩
  -- destroy characterization
  have hdestroy : ∀ (j : Int) (e : TimelineElement), getI t.elements j = some e →
      (j ∈ ev.destroyed ↔
        (hasKey t.activeElements j = true ∧ e.endTimeMs ≤ timeMs)) := by
    intro j e hg
    rw [hdest]
    constructor
    · intro hmem
      rw [List.mem_map] at hmem
      obtain ⟨⟨pk, pv⟩, hp, hpe⟩ := hmem
      simp only at hpe
      subst hpe
      rw [List.mem_filter] at hp
      obtain ⟨hpmem, hpwin⟩ := hp
      obtain ⟨e', hg', hv⟩ := hmidval pk pv hpmem
      rw [hg] at hg'
      cases hg'
      rw [hv] at hpwin
      simp only [inWindow, Bool.not_eq_true', Bool.and_eq_false_iff,
        decide_eq_false_iff_not, not_le, not_lt] at hpwin
      rcases (hkeymid pk).mp (hasKey_of_mem hpmem) with hka | hkb
      · refine ⟨hka, ?_⟩
        rcases hpwin with h' | h'
        · obtain ⟨sta, hmema⟩ := hasKey_iff.mp hka
          obtain ⟨e', hg', -, hbounds⟩ := inv.entries pk sta hmema
          rw [hg] at hg'
          cases hg'
          rcases inv.cursor with ⟨-, hemp, -⟩ | ⟨l, c0, hLsome, -, -, -⟩
          · rw [hemp] at hmema
            simp at hmema
          · obtain ⟨hb1, -⟩ := hbounds l hLsome
            exact absurd (lt_of_lt_of_le hb1
              (le_trans (hLT l hLsome) (le_of_lt h'))) (lt_irrefl _)
        · exact h'
      · obtain ⟨-, hs1, hs2⟩ := (hbuild pk e hg).mp hkb
        rcases hpwin with h' | h'
        · exact absurd hs1 (not_lt.mpr (le_of_lt h'))
        · exact absurd hs2 (not_lt.mpr h')
    · intro ⟨hka, hke⟩
      have hkm : hasKey actMid j = true := (hkeymid j).mpr (Or.inl hka)
      obtain ⟨st, hmem⟩ := hasKey_iff.mp hkm
      obtain ⟨e', hg', hv⟩ := hmidval j st hmem
      rw [hg] at hg'
      cases hg'
      rw [List.mem_map]
      refine ⟨(j, st), ?_, rfl⟩
      rw [List.mem_filter]
      refine ⟨hmem, ?_⟩
      rw [hv]
      simp only [inWindow, Bool.not_eq_true', Bool.and_eq_false_iff,
        decide_eq_false_iff_not]
      right
      simpa using not_lt.mpr hke
  refine ⟨fun j e hg => ⟨hbuild j e hg, hdestroy j e hg, hpostkey j e hg⟩,
    S.buildSorted.imp (fun h => ne_of_lt h), ?_, ?_⟩
  · rw [hdest]
    exact filter_keys_nodup hndMid
  · refine ⟨by rw [helems, inv.elems], by rw [hskip', inv.skip], hlast,
      ?_, ?_, ?_, ?_⟩
    · refine Or.inr ⟨timeMs, c, rfl, hcur, S.exits, ?_⟩
      intro j e hg hjc
      by_cases hjge : Timeline.setInitialElementIndex t.elements
          t.lastTimeMs (t.nextElementIndex.getD 0) timeMs true ≤ j
      · obtain ⟨e', hg', hlt⟩ := S.pass j hjge hjc
        rw [hg] at hg'
        cases hg'
        exact Or.inl hlt
      · push_neg at hjge
        have hj0 : 0 ≤ j := (getI_lt_length hg).1
        rcases setInitialElementIndex_eq t.elements t.lastTimeMs
            (t.nextElementIndex.getD 0) timeMs true with
          ⟨heq, e1, hg1, hnsb, hnsf⟩ | heq
        · rw [heq] at hjge
          rcases inv.cursor with ⟨-, -, hcur0⟩ |
            ⟨l, c0, hLsome, hcur0, -, hbelow⟩
          · rw [hcur0] at hjge
            simp only [Option.getD_none] at hjge
            omega
          · rw [hcur0] at hjge
            simp only [Option.getD_some] at hjge
            rcases hbelow j e hg hjge with h' | h'
            · exact Or.inl (lt_of_lt_of_le h' (hLT l hLsome))
            · exact Or.inr (le_trans h' (hLT l hLsome))
        · rw [heq] at hjge
          have hjge' : j < max (findIndexFwd t.elements timeMs) 0 := hjge
          rcases findIndexFwd_range t.elements timeMs with ⟨h1, h2⟩ | h1
          · have hff : 0 ≤ findIndexFwd t.elements timeMs := by omega
            obtain ⟨-, hleast⟩ := findIndexFwd_found hff
            exact Or.inr (hleast j e hj0 (by omega) hg)
          · rw [h1] at hjge'
            simp at hjge'
            omega
    · intro j st hmem
      have hkey' : hasKey t'.activeElements j = true := by
        rw [hact] at hmem ⊢
        exact hasKey_of_mem hmem
      rw [hact, List.mem_filter] at hmem
      obtain ⟨hmemMid, hwin⟩ := hmem
      obtain ⟨e, hg, hv⟩ := hmidval j st hmemMid
      refine ⟨e, hg, hv, ?_⟩
      intro l hl
      cases hl
      rw [hv] at hwin
      simp only [inWindow, Bool.and_eq_true, decide_eq_true_eq] at hwin
      refine ⟨?_, hwin.2⟩
      rcases (hpostkey j e hg).mp hkey' with ⟨hka, -⟩ | hkb
      · obtain ⟨sta, hmema⟩ := hasKey_iff.mp hka
        obtain ⟨e', hg', -, hbounds⟩ := inv.entries j sta hmema
        rw [hg] at hg'
        cases hg'
        rcases inv.cursor with ⟨-, hemp, -⟩ | ⟨l0, c0, hLsome, -, -, -⟩
        · rw [hemp] at hmema
          simp at hmema
        · obtain ⟨hb1, -⟩ := hbounds l0 hLsome
          exact lt_of_lt_of_le hb1 (hLT l0 hLsome)
      · exact ((hbuild j e hg).mp hkb).2.1
    · intro j e l hg hl hs1 hs2
      cases hl
      rw [hpostkey j e hg]
      cases hLcase : L with
      | none =>
        right
        rw [hbuild j e hg]
        refine ⟨?_, hs1, hs2⟩
        intro l' hl'
        rw [hLcase] at hl'
        cases hl'
      | some l0 =>
        by_cases hls : e.startTimeMs < l0
        · left
          refine ⟨inv.strict j e l0 hg hLcase hls ?_, hs2⟩
          exact lt_of_le_of_lt (hLT l0 hLcase) hs2
        · right
          rw [hbuild j e hg]
          push_neg at hls
          refine ⟨?_, hs1, hs2⟩
          intro l' hl'
          rw [hLcase] at hl'
          cases hl'
          exact hls
    · rw [hact]
      exact filter_keys_nodup hndMid
/-- Characterization of every call's builds and destroys along a
monotone forward playback from a state satisfying the run invariant:
a descriptor is built exactly at the first call whose time lies strictly
past its start, provided that time is still inside its window, and a
tracked descriptor is destroyed exactly at the first call whose time
reached its end. -/
theorem run_chars {es : List TimelineElement}
    (hsorted : es.Pairwise (fun a b => a.startTimeMs ≤ b.startTimeMs)) :
    ∀ (ts : List ℚ) (t : Timeline) (L : Option ℚ), RunInv es t L →
    ts.Chain' (· ≤ ·) →
    (∀ l : ℚ, L = some l → ∀ x ∈ ts.head?, l ≤ x) →
    ∃ (t' : Timeline) (evs : List UpdateEvents),
      Timeline.run t ts = some (t', evs) ∧ evs.length = ts.length ∧
      ∀ (j : Int) (e : TimelineElement), getI es j = some e →
      ∀ (k : ℕ) (tk : ℚ) (evk : UpdateEvents), ts.get? k = some tk →
        evs.get? k = some evk →
        (j ∈ evk.builds ↔ ((∀ l : ℚ, L = some l → l ≤ e.startTimeMs) ∧
          e.startTimeMs < tk ∧ tk < e.endTimeMs ∧
          ∀ (k' : ℕ) (tk' : ℚ), k' < k → ts.get? k' = some tk' →
            tk' ≤ e.startTimeMs)) ∧
        (j ∈ evk.destroyed ↔
          ((hasKey t.activeElements j = true ∨
            ∃ (k' : ℕ) (evk' : UpdateEvents), k' < k ∧
              evs.get? k' = some evk' ∧ j ∈ evk'.builds) ∧
          e.endTimeMs ≤ tk ∧
          (∀ l : ℚ, L = some l → l < e.endTimeMs) ∧
          ∀ (k' : ℕ) (tk' : ℚ), k' < k → ts.get? k' = some tk' →
            tk' < e.endTimeMs)) ∧
        evk.builds.Nodup ∧ evk.destroyed.Nodup := by
  intro ts
  induction ts with
  | nil =>
    intro t L inv hchain hhead
    refine ⟨t, [], rfl, rfl, ?_⟩
    intro j e hg k tk evk htk hek
    simp at htk
  | cons T rest ih =>
    intro t L inv hchain hhead
    have hLT : ∀ l : ℚ, L = some l → l ≤ T := by
      intro l hl
      exact hhead l hl T (by simp)
    obtain ⟨⟨t1, ev0⟩, hupd⟩ :=
      Option.isSome_iff_exists.mp (update_total t T true)
    obtain ⟨hchars0, hnd0, hnd0', inv1⟩ := run_step hsorted inv hLT hupd
    rw [List.chain'_cons'] at hchain
    obtain ⟨hheadR, hchainR⟩ := hchain
    obtain ⟨t', evs', hrun', hlen', hchars'⟩ := ih t1 (some T) inv1 hchainR
      (by
        intro l hl x hx
        cases hl
        exact hheadR x hx)
    refine ⟨t', ev0 :: evs', ?_, by simp [hlen'], ?_⟩
    · simp only [Timeline.run, hupd, hrun']
    · intro j e hg k tk evk htk hek
      obtain ⟨hb0, hd0, hkpost⟩ := hchars0 j e hg
      cases k with
      | zero =>
        rw [List.get?_cons_zero] at htk hek
        cases htk
        cases hek
        refine ⟨?_, ?_, hnd0, hnd0'⟩
        · rw [hb0]
          constructor
          · intro ⟨h1, h2, h3⟩
            exact ⟨h1, h2, h3, by omega⟩
          · rintro ⟨h1, h2, h3, -⟩
            exact ⟨h1, h2, h3⟩
        · rw [hd0]
          constructor
          · intro ⟨h1, h2⟩
            refine ⟨Or.inl h1, h2, ?_, by omega⟩
            intro l hl
            obtain ⟨st, hmem⟩ := hasKey_iff.mp h1
            obtain ⟨e', hg', -, hbounds⟩ := inv.entries j st hmem
            rw [hg] at hg'
            cases hg'
            exact (hbounds l hl).2
          · rintro ⟨h1, h2, -, -⟩
            rcases h1 with h1 | ⟨k', evk', hk', -, -⟩
            · exact ⟨h1, h2⟩
            · omega
      | succ k =>
        rw [List.get?_cons_succ] at htk hek
        obtain ⟨hbR, hdR, hndk, hndk'⟩ := hchars' j e hg k tk evk htk hek
        refine ⟨?_, ?_, hndk, hndk'⟩
        · rw [hbR]
          constructor
          · intro ⟨h1, h2, h3, h4⟩
            have hTs : T ≤ e.startTimeMs := h1 T rfl
            refine ⟨?_, h2, h3, ?_⟩
            · intro l hl
              exact le_trans (hLT l hl) hTs
            · intro k' tk' hk' htk'
              cases k' with
              | zero =>
                rw [List.get?_cons_zero] at htk'
                cases htk'
                exact hTs
              | succ k' =>
                rw [List.get?_cons_succ] at htk'
                exact h4 k' tk' (by omega) htk'
          · intro ⟨h1, h2, h3, h4⟩
            have hTs : T ≤ e.startTimeMs :=
              h4 0 T (by omega) (by rw [List.get?_cons_zero])
            refine ⟨?_, h2, h3, ?_⟩
            · intro l hl
              cases hl
              exact hTs
            · intro k' tk' hk' htk'
              exact h4 (k' + 1) tk' (by omega)
                (by rw [List.get?_cons_succ]; exact htk')
        · rw [hdR]
          constructor
          · intro ⟨h1, h2, h3, h4⟩
            have hTe : T < e.endTimeMs := h3 T rfl
            refine ⟨?_, h2, ?_, ?_⟩
            · rcases h1 with h1 | ⟨k', evk', hk', hek', hbk'⟩
              · rcases (hkpost).mp h1 with ⟨h1', -⟩ | h1'
                · exact Or.inl h1'
                · exact Or.inr ⟨0, ev0, by omega,
                    by rw [List.get?_cons_zero], h1'⟩
              · exact Or.inr ⟨k' + 1, evk', by omega,
                  by rw [List.get?_cons_succ]; exact hek', hbk'⟩
            · intro l hl
              exact lt_of_le_of_lt (hLT l hl) hTe
            · intro k' tk' hk' htk'
              cases k' with
              | zero =>
                rw [List.get?_cons_zero] at htk'
                cases htk'
                exact hTe
              | succ k' =>
                rw [List.get?_cons_succ] at htk'
                exact h4 k' tk' (by omega) htk'
          · intro ⟨h1, h2, h3, h4⟩
            have hTe : T < e.endTimeMs :=
              h4 0 T (by omega) (by rw [List.get?_cons_zero])
            refine ⟨?_, h2, ?_, ?_⟩
            · rcases h1 with h1 | ⟨k', evk', hk', hek', hbk'⟩
              · left
                exact (hkpost).mpr (Or.inl ⟨h1, hTe⟩)
              · cases k' with
                | zero =>
                  rw [List.get?_cons_zero] at hek'
                  cases hek'
                  exact Or.inl ((hkpost).mpr (Or.inr hbk'))
                | succ k' =>
                  rw [List.get?_cons_succ] at hek'
                  exact Or.inr ⟨k', evk', by omega, hek', hbk'⟩
            · intro l hl
              cases hl
              exact hTe
            · intro k' tk' hk' htk'
              exact h4 (k' + 1) tk' (by omega)
                (by rw [List.get?_cons_succ]; exact htk')
/-- The `find?`-based window-hit test agrees with the positional
first-call characterization. -/
theorem hitsWindow_iff {e : TimelineElement} : ∀ {ts : List ℚ},
    hitsWindow ts e = true ↔
    ∃ (k : ℕ) (tk : ℚ), ts.get? k = some tk ∧ e.startTimeMs < tk ∧
      tk < e.endTimeMs ∧ ∀ (k' : ℕ) (tk' : ℚ), k' < k →
        ts.get? k' = some tk' → tk' ≤ e.startTimeMs := by
  intro ts
  induction ts with
  | nil =>
    simp [hitsWindow, firstHit]
  | cons T rest ih =>
    by_cases hT : e.startTimeMs < T
    · have hfind : hitsWindow (T :: rest) e = decide (T < e.endTimeMs) := by
        unfold hitsWindow firstHit
        rw [List.find?_cons_of_pos _ (by simpa using hT)]
      rw [hfind]
      constructor
      · intro h
        exact ⟨0, T, rfl, hT, by simpa using h, by omega⟩
      · intro ⟨k, tk, htk, h1, h2, h3⟩
        cases k with
        | zero =>
          rw [List.get?_cons_zero] at htk
          cases htk
          simpa using h2
        | succ k =>
          have := h3 0 T (by omega) (by rw [List.get?_cons_zero])
          exact absurd hT (not_lt.mpr this)
    · have hfind : hitsWindow (T :: rest) e = hitsWindow rest e := by
        unfold hitsWindow firstHit
        rw [List.find?_cons_of_neg _ (by simpa using hT)]
      rw [hfind, ih]
      constructor
      · intro ⟨k, tk, htk, h1, h2, h3⟩
        refine ⟨k + 1, tk, by rw [List.get?_cons_succ]; exact htk, h1, h2, ?_⟩
        intro k' tk' hk' htk'
        cases k' with
        | zero =>
          rw [List.get?_cons_zero] at htk'
          cases htk'
          exact le_of_not_lt hT
        | succ k' =>
          rw [List.get?_cons_succ] at htk'
          exact h3 k' tk' (by omega) htk'
      · intro ⟨k, tk, htk, h1, h2, h3⟩
        cases k with
        | zero =>
          rw [List.get?_cons_zero] at htk
          cases htk
          exact absurd h1 hT
        | succ k =>
          rw [List.get?_cons_succ] at htk
          refine ⟨k, tk, htk, h1, h2, ?_⟩
          intro k' tk' hk' htk'
          exact h3 (k' + 1) tk' (by omega)
            (by rw [List.get?_cons_succ]; exact htk')

/-- C1 counterexample: over the spec's descriptors `[0,1000) [500,1500)
[2000,3000)` (skipping enabled), the monotone forward playback
`update(0); update(2500)` refutes the claim twice.  `update(0)` builds
nothing — in particular it does not activate the first descriptor even
though `0 >= startTime`, because activation requires strictly
`time > startTime` — and across the whole playback the first two
descriptors are never activated at all (the cursor resynchronization
jumps over their already-elapsed windows), not exactly once. -/
theorem c1_counterexample :
    Timeline.run (mkTimeline [⟨0, 1000⟩, ⟨500, 1500⟩, ⟨2000, 3000⟩] true)
      [0, 2500] =
    some (⟨[⟨0, 1000⟩, ⟨500, 1500⟩, ⟨2000, 3000⟩], true,
        [(2, ⟨2000, 3000⟩)], some 2500, some 3⟩,
      [⟨[], [], []⟩, ⟨[2], [2], []⟩]) := by
  decide

/-- C1 (amended): along every monotone forward playback of a timeline
with element skipping enabled, each descriptor is activated at most
once, namely at the first call whose time is strictly past its
`startTimeMs`, and then only when that call's time is still before its
`endTimeMs` (otherwise the descriptor is never activated at all —
skip-bypassed); an activated descriptor is deactivated exactly once, at
the first call whose time is at or past its `endTimeMs`. -/
theorem c1_exactly_once (elements : List TimelineElement) (ts : List ℚ)
    (hmono : ts.Chain' (· ≤ ·)) :
    ∃ (t' : Timeline) (evs : List UpdateEvents),
      Timeline.run (mkTimeline elements true) ts = some (t', evs) ∧
      evs.length = ts.length ∧
      ∀ (j : Int) (e : TimelineElement),
        getI (mkTimeline elements true).elements j = some e →
        (∀ (k : ℕ) (tk : ℚ) (evk : UpdateEvents), ts.get? k = some tk →
          evs.get? k = some evk →
          (j ∈ evk.builds ↔ (e.startTimeMs < tk ∧ tk < e.endTimeMs ∧
            ∀ (k' : ℕ) (tk' : ℚ), k' < k → ts.get? k' = some tk' →
              tk' ≤ e.startTimeMs))) ∧
        (∀ (k : ℕ) (evk : UpdateEvents), evs.get? k = some evk →
          evk.builds.count j ≤ 1) ∧
        (∀ (k1 k2 : ℕ) (ev1 ev2 : UpdateEvents), evs.get? k1 = some ev1 →
          evs.get? k2 = some ev2 → j ∈ ev1.builds → j ∈ ev2.builds →
          k1 = k2) ∧
        ((∃ (k : ℕ) (evk : UpdateEvents), evs.get? k = some evk ∧
          j ∈ evk.builds) ↔ hitsWindow ts e = true) ∧
        (∀ (k : ℕ) (tk : ℚ) (evk : UpdateEvents), ts.get? k = some tk →
          evs.get? k = some evk →
          (j ∈ evk.destroyed ↔
            ((∃ (k' : ℕ) (evk' : UpdateEvents), k' < k ∧
              evs.get? k' = some evk' ∧ j ∈ evk'.builds) ∧
            e.endTimeMs ≤ tk ∧
            ∀ (k' : ℕ) (tk' : ℚ), k' < k → ts.get? k' = some tk' →
              tk' < e.endTimeMs))) ∧
        (∀ (k : ℕ) (evk : UpdateEvents), evs.get? k = some evk →
          evk.destroyed.count j ≤ 1) ∧
        (∀ (k1 k2 : ℕ) (ev1 ev2 : UpdateEvents), evs.get? k1 = some ev1 →
          evs.get? k2 = some ev2 → j ∈ ev1.destroyed → j ∈ ev2.destroyed →
          k1 = k2) := by
  obtain ⟨t', evs, hrun, hlen, hchars⟩ := run_chars
    (sortByStart_pairwise elements) ts (mkTimeline elements true) none
    (runInv_init elements) hmono (by intro l hl; cases hl)
  refine ⟨t', evs, hrun, hlen, ?_⟩
  intro j e hg
  have hg' : getI (sortByStart elements) j = some e := hg
  -- positional lookups transfer between the two equal-length lists
  have hts_of_hek : ∀ (k : ℕ) (evk : UpdateEvents), evs.get? k = some evk →
      ∃ tk, ts.get? k = some tk := by
    intro k evk hek
    have hk : k < evs.length := get?_isSome_iff.mp (by rw [hek]; rfl)
    rw [hlen] at hk
    exact Option.isSome_iff_exists.mp (get?_isSome_iff.mpr hk)
  -- simplified per-call characterizations from the empty start state
  have hbuild : ∀ (k : ℕ) (tk : ℚ) (evk : UpdateEvents),
      ts.get? k = some tk → evs.get? k = some evk →
      (j ∈ evk.builds ↔ (e.startTimeMs < tk ∧ tk < e.endTimeMs ∧
        ∀ (k' : ℕ) (tk' : ℚ), k' < k → ts.get? k' = some tk' →
          tk' ≤ e.startTimeMs)) := by
    intro k tk evk htk hek
    obtain ⟨hb, -, -, -⟩ := hchars j e hg' k tk evk htk hek
    rw [hb]
    constructor
    · rintro ⟨-, h2, h3, h4⟩
      exact ⟨h2, h3, h4⟩
    · rintro ⟨h2, h3, h4⟩
      exact ⟨(by intro l hl; cases hl), h2, h3, h4⟩
  have hdestroy : ∀ (k : ℕ) (tk : ℚ) (evk : UpdateEvents),
      ts.get? k = some tk → evs.get? k = some evk →
      (j ∈ evk.destroyed ↔
        ((∃ (k' : ℕ) (evk' : UpdateEvents), k' < k ∧
          evs.get? k' = some evk' ∧ j ∈ evk'.builds) ∧
        e.endTimeMs ≤ tk ∧
        ∀ (k' : ℕ) (tk' : ℚ), k' < k → ts.get? k' = some tk' →
          tk' < e.endTimeMs)) := by
    intro k tk evk htk hek
    obtain ⟨-, hd, -, -⟩ := hchars j e hg' k tk evk htk hek
    rw [hd]
    constructor
    · rintro ⟨h1, h2, -, h4⟩
      rcases h1 with h1 | h1
      · rw [show (mkTimeline elements true).activeElements = [] from rfl]
          at h1
        simp [hasKey] at h1
      · exact ⟨h1, h2, h4⟩
    · rintro ⟨h1, h2, h4⟩
      exact ⟨Or.inr h1, h2, (by intro l hl; cases hl), h4⟩
  refine ⟨hbuild, ?_, ?_, ?_, hdestroy, ?_, ?_⟩
  · intro k evk hek
    obtain ⟨tk, htk⟩ := hts_of_hek k evk hek
    obtain ⟨-, -, hnd, -⟩ := hchars j e hg' k tk evk htk hek
    exact List.nodup_iff_count_le_one.mp hnd j
  · intro k1 k2 ev1 ev2 hek1 hek2 hb1 hb2
    obtain ⟨t1, ht1⟩ := hts_of_hek k1 ev1 hek1
    obtain ⟨t2, ht2⟩ := hts_of_hek k2 ev2 hek2
    obtain ⟨-, hs11, hs12⟩ := (hbuild k1 t1 ev1 ht1 hek1).mp hb1
    obtain ⟨hs21, -, hs22⟩ := (hbuild k2 t2 ev2 ht2 hek2).mp hb2
    by_contra hne
    rcases lt_or_gt_of_ne hne with hlt | hlt
    · have := hs22 k1 t1 hlt ht1
      obtain ⟨hs11', -, -⟩ := (hbuild k1 t1 ev1 ht1 hek1).mp hb1
      exact absurd hs11' (not_lt.mpr this)
    · have := hs12 k2 t2 hlt ht2
      exact absurd hs21 (not_lt.mpr this)
  · constructor
    · rintro ⟨k, evk, hek, hb⟩
      obtain ⟨tk, htk⟩ := hts_of_hek k evk hek
      obtain ⟨h1, h2, h3⟩ := (hbuild k tk evk htk hek).mp hb
      exact hitsWindow_iff.mpr ⟨k, tk, htk, h1, h2, h3⟩
    · intro hw
      obtain ⟨k, tk, htk, h1, h2, h3⟩ := hitsWindow_iff.mp hw
      have hk : k < ts.length := get?_isSome_iff.mp (by rw [htk]; rfl)
      rw [← hlen] at hk
      obtain ⟨evk, hek⟩ := Option.isSome_iff_exists.mp (get?_isSome_iff.mpr hk)
      exact ⟨k, evk, hek, (hbuild k tk evk htk hek).mpr ⟨h1, h2, h3⟩⟩
  · intro k evk hek
    obtain ⟨tk, htk⟩ := hts_of_hek k evk hek
    obtain ⟨-, -, -, hnd⟩ := hchars j e hg' k tk evk htk hek
    exact List.nodup_iff_count_le_one.mp hnd j
  · intro k1 k2 ev1 ev2 hek1 hek2 hd1 hd2
    obtain ⟨t1, ht1⟩ := hts_of_hek k1 ev1 hek1
    obtain ⟨t2, ht2⟩ := hts_of_hek k2 ev2 hek2
    obtain ⟨-, hs11, hs12⟩ := (hdestroy k1 t1 ev1 ht1 hek1).mp hd1
    obtain ⟨-, hs21, hs22⟩ := (hdestroy k2 t2 ev2 ht2 hek2).mp hd2
    by_contra hne
    rcases lt_or_gt_of_ne hne with hlt | hlt
    · have := hs22 k1 t1 hlt ht1
      exact absurd hs11 (not_le.mpr this)
    · have := hs12 k2 t2 hlt ht2
      exact absurd hs21 (not_le.mpr this)

theorem c1_exactly_once_witness :
    ∃ (t' : Timeline) (evs : List UpdateEvents),
      Timeline.run (mkTimeline [⟨0, 1000⟩, ⟨500, 1500⟩, ⟨2000, 3000⟩] true)
        [0, 600, 1000, 1600, 2000] = some (t', evs) ∧
      evs.length = ([0, 600, 1000, 1600, 2000] : List ℚ).length ∧
      ∀ (j : Int) (e : TimelineElement),
        getI (mkTimeline [⟨0, 1000⟩, ⟨500, 1500⟩, ⟨2000, 3000⟩]
          true).elements j = some e →
        (∀ (k : ℕ) (tk : ℚ) (evk : UpdateEvents),
          ([0, 600, 1000, 1600, 2000] : List ℚ).get? k = some tk →
          evs.get? k = some evk →
          (j ∈ evk.builds ↔ (e.startTimeMs < tk ∧ tk < e.endTimeMs ∧
            ∀ (k' : ℕ) (tk' : ℚ), k' < k →
              ([0, 600, 1000, 1600, 2000] : List ℚ).get? k' = some tk' →
              tk' ≤ e.startTimeMs))) ∧
        (∀ (k : ℕ) (evk : UpdateEvents), evs.get? k = some evk →
          evk.builds.count j ≤ 1) ∧
        (∀ (k1 k2 : ℕ) (ev1 ev2 : UpdateEvents), evs.get? k1 = some ev1 →
          evs.get? k2 = some ev2 → j ∈ ev1.builds → j ∈ ev2.builds →
          k1 = k2) ∧
        ((∃ (k : ℕ) (evk : UpdateEvents), evs.get? k = some evk ∧
          j ∈ evk.builds) ↔
          hitsWindow ([0, 600, 1000, 1600, 2000] : List ℚ) e = true) ∧
        (∀ (k : ℕ) (tk : ℚ) (evk : UpdateEvents),
          ([0, 600, 1000, 1600, 2000] : List ℚ).get? k = some tk →
          evs.get? k = some evk →
          (j ∈ evk.destroyed ↔
            ((∃ (k' : ℕ) (evk' : UpdateEvents), k' < k ∧
              evs.get? k' = some evk' ∧ j ∈ evk'.builds) ∧
            e.endTimeMs ≤ tk ∧
            ∀ (k' : ℕ) (tk' : ℚ), k' < k →
              ([0, 600, 1000, 1600, 2000] : List ℚ).get? k' = some tk' →
              tk' < e.endTimeMs))) ∧
        (∀ (k : ℕ) (evk : UpdateEvents), evs.get? k = some evk →
          evk.destroyed.count j ≤ 1) ∧
        (∀ (k1 k2 : ℕ) (ev1 ev2 : UpdateEvents), evs.get? k1 = some ev1 →
          evs.get? k2 = some ev2 → j ∈ ev1.destroyed → j ∈ ev2.destroyed →
          k1 = k2) :=
  c1_exactly_once [⟨0, 1000⟩, ⟨500, 1500⟩, ⟨2000, 3000⟩]
    [0, 600, 1000, 1600, 2000] (by norm_num [List.chain'_cons])

theorem c5_stop_semantics_witness :
    (⟨⟨500⟩, some ⟨true, 1⟩⟩ : AudioTimelineInstance).sound =
      some ⟨true, 1⟩ ∧
    SoundCmd.stop ∈ seekVoice 0 0 ⟨⟨500⟩, some ⟨true, 1⟩⟩ :=
  ⟨rfl, ((c5_stop_semantics 0 0 ⟨⟨500⟩, some ⟨true, 1⟩⟩ ⟨true, 1⟩ rfl).1
    (by norm_num)).mpr rfl⟩
